import Mathlib

/-!
Verification of the AccelLedger core (a JavaScript double-entry bookkeeping
engine) against its natural-language specification.

The JavaScript sources are shallowly embedded: `Decimal` values become `ℚ`
(decimal.js arithmetic on the operations used here — plus, minus, times, div,
abs, comparisons — is exact up to its precision setting; on `ℚ` they are exact),
JavaScript `Date`s become `ℕ` (their numeric timestamps), JavaScript `Map`s
become association lists with first-match lookup, in-place replacement on `set`
of an existing key, and append on `set` of a fresh key (the insertion-order
semantics of a JS `Map`).  Fallible code returns `Option`/`Except`, with `none`/
`.error` marking a thrown JavaScript exception.

Cross-module references of the source are resolved to the matching exported
symbol of the repository (the source files are loose parts whose module graph
is not recorded); scoping *inside* a function body is modelled exactly as
JavaScript resolves it.
-/

namespace AccelLedger

/-- `sameSign` from `accelledger/core/number.js`:
`number1 >= 0 === number2 >= 0`. -/
def sameSign (a b : ℚ) : Bool := (0 ≤ a) = (0 ≤ b)

/-! ## Inventory (`core/inventory` = `src/unnamed/part_005`, first section)

`Amount`, `Cost`, `Position` are the classes of `position.js`
(`src/unnamed/part_001`, first section), with `Decimal` numbers as `ℚ` and
dates as `ℕ`. -/

namespace Inv

structure Amount where
  number : ℚ
  currency : String
deriving DecidableEq, Repr

structure Cost where
  number : ℚ
  currency : String
  date : Option ℕ
  label : Option String
deriving DecidableEq, Repr

structure Position where
  units : Amount
  cost : Option Cost
deriving DecidableEq, Repr

/-- The identity of a `Cost` as used by the inventory key, mirroring
`Cost.toString()`: `number`, `currency`, the date part when the date is
present, and the label only when it is truthy — a label that is the empty
string is omitted from the rendering exactly like an absent label, so the
key identifies `label: ""` with `label: null`.  (Two costs render to the
same string iff they agree on these normalized fields.) -/
structure CostKey where
  number : ℚ
  currency : String
  date : Option ℕ
  label : Option String
deriving DecidableEq, Repr

def Cost.key (c : Cost) : CostKey :=
  { number := c.number
    currency := c.currency
    date := c.date
    label := if c.label = some "" then none else c.label }

/-- The inventory key `` `${units.currency},${cost ? cost.toString() : "null"}` ``:
the units currency paired with the cost identity (or the "null" marker). -/
abbrev InvKey := String × Option CostKey

def invKey (units : Amount) (cost : Option Cost) : InvKey :=
  (units.currency, cost.map Cost.key)

/-- Booking outcomes (`MatchResult` in `inventory.js`). -/
inductive MatchResult
  | CREATED
  | REDUCED
  | AUGMENTED
  | IGNORED
deriving DecidableEq, Repr

/-- An `Inventory` is a JS `Map` from `InvKey` to `Position`, modelled as an
association list in insertion order. -/
abbrev Inventory := List (InvKey × Position)

namespace Inventory

/-- `Map.prototype.get`: the (unique, for genuine map states) binding for `k`. -/
def get (inv : Inventory) (k : InvKey) : Option Position :=
  (inv.find? (fun e => e.1 = k)).map (fun e => e.2)

/-- `Map.prototype.set`: replace the binding for `k` in place, or append it. -/
def setk : Inventory → InvKey → Position → Inventory
  | [], k, v => [(k, v)]
  | e :: rest, k, v =>
      if e.1 = k then (k, v) :: rest else e :: setk rest k v

/-- `Map.prototype.delete`: drop the binding for `k` (a genuine map state has
at most one, so removing every binding with key `k` is the same operation). -/
def del (inv : Inventory) (k : InvKey) : Inventory :=
  inv.filter (fun e => ¬ e.1 = k)

def isEmpty (inv : Inventory) : Bool := inv.length = 0

def getPositions (inv : Inventory) : List Position := inv.map (fun e => e.2)

/-- `Inventory.addAmount(units, cost)` from `src/unnamed/part_005` lines
236–271.  The JS method mutates `this` and returns `[pos, booking]`; here the
updated inventory is returned alongside the prior position and the outcome. -/
def addAmount (inv : Inventory) (units : Amount) (cost : Option Cost) :
    Inventory × Option Position × MatchResult :=
  let key := invKey units cost
  match get inv key with
  | some pos =>
      let booking := if sameSign pos.units.number units.number
        then MatchResult.AUGMENTED else MatchResult.REDUCED
      let number := pos.units.number + units.number
      let inv2 := if number = 0 then del inv key
        else setk inv key ⟨⟨number, units.currency⟩, cost⟩
      (inv2, some pos, booking)
  | none =>
      if units.number = 0 then (inv, none, MatchResult.IGNORED)
      else (setk inv key ⟨units, cost⟩, none, MatchResult.CREATED)

/-- `Inventory.addPosition(position)`. -/
def addPosition (inv : Inventory) (p : Position) :
    Inventory × Option Position × MatchResult :=
  addAmount inv p.units p.cost

/-- `Inventory.addInventory(other)`: when `this` is empty, every binding of
`other` is copied with `set` (into an empty map that reproduces `other`);
otherwise each position of `other` is added with `addPosition`. -/
def addInventory (inv other : Inventory) : Inventory :=
  if inv.isEmpty then other
  else (getPositions other).foldl (fun acc p => (addPosition acc p).1) inv

/-- `convert.getCost(pos).number` (from `src/unnamed/part_001`, `convert`
section): `cost.number × units.number` when a bound cost with a decimal
number is present, else the units number. -/
def posCostNumber (p : Position) : ℚ :=
  match p.cost with
  | some c => c.number * p.units.number
  | none => p.units.number

/-- The grouping key of `Inventory.average()`:
`` `${units.currency},${cost ? cost.currency : "null"}` ``. -/
def avgKey (p : Position) : String × Option String :=
  (p.units.currency, p.cost.map (fun c => c.currency))

/-- Group a list by a key, preserving the first-appearance order of groups
and the order within each group (a JS `Map`-of-arrays accumulation). -/
def groupByKey {κ : Type} [DecidableEq κ] (key : Position → κ) :
    List Position → List (κ × List Position)
  | [] => []
  | p :: rest =>
      let gs := groupByKey key rest
      if (gs.find? (fun g => g.1 = key p)).isSome then
        gs.map (fun g => if g.1 = key p then (g.1, p :: g.2) else g)
      else (key p, [p]) :: gs

/-- The min-date fold of `average()`:
`posDate && (!min || posDate < min) ? posDate : min`. -/
def minDateFold (acc : Option ℕ) (p : Position) : Option ℕ :=
  match p.cost.bind (fun c => c.date) with
  | some d =>
      match acc with
      | none => some d
      | some m => if d < m then some d else some m
  | none => acc

/-- `Inventory.average()` from `src/unnamed/part_005` lines 188–234.
Groups positions by (units currency, cost currency), drops groups whose
total units are zero, and collapses each remaining group into one position
whose cost number is total cost / total units, dated at the earliest cost
date, with no label.  (The `Infinity` guard of the source is dead: groups
with zero total units were already skipped.) -/
def averageStep (acc : Inventory) (g : (String × Option String) × List Position) :
    Inventory :=
  let positions := g.2
  let totalUnits := positions.foldl (fun s p => s + p.units.number) 0
  if totalUnits = 0 then acc
  else
    let currency := (positions.head?.map (fun p => p.units.currency)).getD ""
    let unitsAmount : Amount := ⟨totalUnits, currency⟩
    match positions.head?.bind (fun p => p.cost) with
    | some c0 =>
        let totalCost := positions.foldl (fun s p => s + posCostNumber p) 0
        let costNumber := totalCost / totalUnits
        let minDate := positions.foldl minDateFold none
        (addAmount acc unitsAmount (some ⟨costNumber, c0.currency, minDate, none⟩)).1
    | none => (addAmount acc unitsAmount none).1

def average (inv : Inventory) : Inventory :=
  (groupByKey avgKey (getPositions inv)).foldl averageStep []

end Inventory

end Inv

/-! ## Price map (`prices` module, `src/unnamed/part_001`, second section)

A `Price` directive carries a date, a base currency and an amount
(rate, quote currency).  The price map is a JS `Map` keyed by the string
`` `${base},${quote}` ``; currencies contain no commas (they match
`[A-Z][A-Z0-9'.\-]*[A-Z0-9]?`), so the key is modelled as the ordered pair. -/

namespace Prices

structure PriceDir where
  date : ℕ
  currency : String
  amountNumber : ℚ
  amountCurrency : String
deriving DecidableEq, Repr

abbrev Pair := String × String
abbrev PriceList := List (ℕ × ℚ)
abbrev PMap := List (Pair × PriceList)

def pmapGet (m : PMap) (p : Pair) : Option PriceList :=
  (m.find? (fun e => e.1 = p)).map (fun e => e.2)

def pmapSet : PMap → Pair → PriceList → PMap
  | [], p, l => [(p, l)]
  | e :: rest, p, l => if e.1 = p then (p, l) :: rest else e :: pmapSet rest p l

def pmapDel (m : PMap) (p : Pair) : PMap :=
  m.filter (fun e => ¬ e.1 = p)

/-- The accumulation loop of `buildPriceMap`: for each `Price` entry, append
`[date, rate]` to the list at key `(price.currency, price.amount.currency)`,
creating the list first when absent. -/
def pushEntry (m : PMap) (p : Pair) (e : ℕ × ℚ) : PMap :=
  match pmapGet m p with
  | some l => pmapSet m p (l ++ [e])
  | none => m ++ [(p, [e])]

def accumulate (dirs : List PriceDir) : PMap :=
  dirs.foldl
    (fun m pr => pushEntry m (pr.currency, pr.amountCurrency) (pr.date, pr.amountNumber)) []

/-- One step of the forward/inverse merging loop of `buildPriceMap`.  The JS
reads `bqPrices`/`qbPrices` with `Map.get`, which yields `undefined` when a
previous step already deleted the key; `undefined.length` then throws a
`TypeError`, modelled as `none`.  For a self pair (`base = quote`) the list
receiving the push is the very array that was just deleted from the map, so
the merged data is lost with the key. -/
def removalStep (m : PMap) (bq : Pair) : Option PMap :=
  match pmapGet m bq, pmapGet m bq.swap with
  | some bqPrices, some qbPrices =>
      let remove := if bqPrices.length < qbPrices.length then bq else bq.swap
      match pmapGet m remove, pmapGet m remove.swap with
      | some removeList, some insertList =>
          let m1 := pmapDel m remove
          let invertedList := (removeList.filter (fun e => ¬ e.2 = 0)).map
            (fun e => (e.1, 1 / e.2))
          if remove.swap = remove then some m1
          else some (pmapSet m1 remove.swap (insertList ++ invertedList))
      | _, _ => none
  | _, _ => none

/-- `dateRates.sort((a, b) => a[0] - b[0])`: a stable sort by date. -/
def sortByDate (l : PriceList) : PriceList :=
  l.insertionSort (fun a b => a.1 ≤ b.1)

/-- The dedup filter of `buildPriceMap`: keep an entry iff it is the first of
its date (`index === self.findIndex(t => t[0].getTime() === item[0].getTime())`),
tracked by the set of dates already seen. -/
def dedupFirstAux (seen : List ℕ) : PriceList → PriceList
  | [] => []
  | e :: rest =>
      if e.1 ∈ seen then dedupFirstAux seen rest
      else e :: dedupFirstAux (e.1 :: seen) rest

def dedupFirst (l : PriceList) : PriceList := dedupFirstAux [] l

def sortDedup (l : PriceList) : PriceList := dedupFirst (sortByDate l)

/-- Pointwise reciprocal of a price list, skipping zero rates — the inverse
list materialized by `buildPriceMap` for each forward pair. -/
def invList (l : PriceList) : PriceList :=
  (l.filter (fun e => ¬ e.2 = 0)).map (fun e => (e.1, 1 / e.2))

structure PriceMapS where
  entries : PMap
  forwardPairs : List Pair
deriving DecidableEq, Repr

/-- The pairs that occur in both orientations (`inversedUnits`): the keys of
the map whose reversed key is also present. -/
def inversedUnitsOf (m1 : PMap) : List Pair :=
  (m1.map (fun e => e.1)).filter (fun p => (pmapGet m1 p.swap).isSome)

/-- The sort/dedup pass of `buildPriceMap`: every list sorted by date, first
entry per date kept. -/
def sortedMap (m2 : PMap) : PMap :=
  m2.map (fun kv => (kv.1, sortDedup kv.2))

/-- The final loop of `buildPriceMap`: for every (forward) key, set the
reversed key to the pointwise reciprocal of its list.  (`getD []` is for
totality only: every forward key is still present when it is read.) -/
def addInverses (m3 : PMap) : PMap :=
  (m3.map (fun e => e.1)).foldl
    (fun m p => pmapSet m p.swap (invList ((pmapGet m p).getD []))) m3

/-- `buildPriceMap(entries)` from `src/unnamed/part_001` lines 140–202:
accumulate per ordered pair, merge mutual pairs (inverting the shorter list —
this loop throws whenever a proper mutual pair is present, because both
orientations are in `inversedUnits` and the second iteration reads a deleted
key), sort each list by date keeping the first entry per date, then
materialize the inverse of every remaining (forward) pair. -/
def buildPriceMap (dirs : List PriceDir) : Option PriceMapS :=
  let m1 := accumulate dirs
  match (inversedUnitsOf m1).foldlM removalStep m1 with
  | none => none
  | some m2 =>
      some ⟨addInverses (sortedMap m2), (sortedMap m2).map (fun e => e.1)⟩

/-- `lookupPriceAndInverse`: the list at the pair's key, falling back to the
reversed pair; the JS throws when both are absent, and its callers catch that
and return `[null, null]` — modelled by `none`. -/
def lookupPriceAndInverse (m : PMap) (bq : Pair) : Option PriceList :=
  match pmapGet m bq with
  | some l => some l
  | none => pmapGet m bq.swap

/-- The `findIndex`/`index - 1` scan of `getPrice`: find the first entry whose
date is strictly greater than `d`; return the entry just before it when that
first entry is not at index 0, else `null`.  `go` carries the entry at the
previous index. -/
def priceListLookupGo (prev : ℕ × ℚ) : PriceList → ℕ → Option (ℕ × ℚ)
  | [], _ => none
  | e :: rest, d => if d < e.1 then some prev else priceListLookupGo e rest d

def priceListLookup : PriceList → ℕ → Option (ℕ × ℚ)
  | [], _ => none
  | e :: rest, d => if d < e.1 then none else priceListLookupGo e rest d

/-- A lookup result `[date, rate]` whose components may each be `null`. -/
abbrev PriceRes := Option ℕ × Option ℚ

def toRes : Option (ℕ × ℚ) → PriceRes
  | some e => (some e.1, some e.2)
  | none => (none, none)

/-- `getLatestPrice(priceMap, baseQuote)` (lines 284–298): `[null, ONE]` when
the quote is falsy or equals the base, else the last entry of the pair's list,
`[null, null]` when the pair is unknown or its list is empty. -/
def getLatestPrice (pm : PriceMapS) (bq : Pair) : PriceRes :=
  if bq.2 = "" ∨ bq.1 = bq.2 then (none, some 1)
  else
    match lookupPriceAndInverse pm.entries bq with
    | none => (none, none)
    | some l => toRes l.getLast?

/-- `getPrice(priceMap, baseQuote, date)` (lines 300–317): a falsy date
delegates to `getLatestPrice`; otherwise the `findIndex` scan above. -/
def getPrice (pm : PriceMapS) (bq : Pair) : Option ℕ → PriceRes
  | none => getLatestPrice pm bq
  | some d =>
      if bq.2 = "" ∨ bq.1 = bq.2 then (none, some 1)
      else
        match lookupPriceAndInverse pm.entries bq with
        | none => (none, none)
        | some l => toRes (priceListLookup l d)

/-- Modelled from the spec (claims C2/C7 reference point): "binary-search for
the greatest entry with date strictly less than the argument". -/
def specLookupLT (l : PriceList) (d : ℕ) : Option (ℕ × ℚ) :=
  (l.filter (fun e => e.1 < d)).foldl
    (fun acc e => match acc with
      | none => some e
      | some a => if a.1 ≤ e.1 then some e else some a) none

/-- The behavior the code actually implements on a date-sorted list: the
greatest entry whose date is less than *or equal to* the argument, provided
some entry has date strictly greater than the argument; `null` otherwise. -/
def specLookupLE (l : PriceList) (d : ℕ) : Option (ℕ × ℚ) :=
  if l.any (fun e => d < e.1) then (l.filter (fun e => e.1 ≤ d)).getLast?
  else none

end Prices

/-! ## Entry sorting (`core/data` = `src/unnamed/part_002`, and
`accelledger/loader.js`)

Only the fields the sort consults are modelled: the directive's constructor
name (its kind), its `date` and its `meta.lineno`. -/

namespace Sorting

inductive DKind
  | openD
  | closeD
  | balanceD
  | documentD
  | transactionD
  | otherD
deriving DecidableEq, Repr

structure Entry where
  kind : DKind
  date : ℕ
  lineno : ℕ
deriving DecidableEq, Repr

/-- `SORT_ORDER[entry.constructor.name] || 0` from `src/unnamed/part_002`
lines 116–124. -/
def sortOrderRank : DKind → ℤ
  | .openD => -2
  | .balanceD => -1
  | .documentD => 1
  | .closeD => 2
  | _ => 0

/-- `entrySortKey(entry) = [entry.date, rank, entry.meta.lineno]`. -/
def entrySortKey (e : Entry) : ℕ × ℤ × ℕ :=
  (e.date, sortOrderRank e.kind, e.lineno)

/-- Lexicographic comparison of two sort keys. -/
def keyLe (a b : Entry) : Bool :=
  let ka := entrySortKey a
  let kb := entrySortKey b
  ka.1 < kb.1 ∨ (ka.1 = kb.1 ∧ (ka.2.1 < kb.2.1 ∨
    (ka.2.1 = kb.2.1 ∧ ka.2.2 ≤ kb.2.2)))

/-- The sort the loader actually performs on the merged entry list
(`loader.js` line 74): `entries.sort((a, b) => a.date - b.date)` — a stable
sort by date alone.  `Array.prototype.sort` is stable, as is insertion sort. -/
def loaderSortEntries (l : List Entry) : List Entry :=
  l.insertionSort (fun a b => a.date ≤ b.date)

/-- `sortEntries` from `src/unnamed/part_002` lines 127–137: the full
`(date, rank, lineno)` lexicographic sort.  The loader's `_load` never calls
it; it is included to record which function realizes the spec's ordering. -/
def sortEntries (l : List Entry) : List Entry :=
  l.insertionSort (fun a b => keyLe a b)

end Sorting

/-! ## Pad processor (`accelledger/ops/pad` = `src/unnamed/part_013`)

The `Pad` directive class itself is absent from the sources (only its callers
survive); it is modelled from the spec: `Pad(account, source_account)` with
`meta` and `date`.  Amounts are `(ℚ, String)` pairs. -/

namespace Padp

structure PAmount where
  number : ℚ
  currency : String
deriving DecidableEq, Repr

inductive PDirective
  | transaction (lineno : ℕ) (date : ℕ) (narration : String)
  | pad (lineno : ℕ) (date : ℕ) (account : String) (sourceAccount : String)
  | balance (lineno : ℕ) (date : ℕ) (account : String) (amount : PAmount)
  | other (lineno : ℕ) (date : ℕ)
deriving DecidableEq, Repr

def isPad : PDirective → Bool
  | .pad _ _ _ _ => true
  | _ => false

def padAccount : PDirective → Option String
  | .pad _ _ a _ => some a
  | _ => none

structure PadErr where
  lineno : ℕ
  message : String
deriving DecidableEq, Repr

/-- The `groupBy(pads, pad => pad.account)` of `pad()`: association list of
account → pads, in first-appearance order. -/
def padGroups : List PDirective → List (String × List PDirective)
  | [] => []
  | e :: rest =>
      let gs := padGroups rest
      match padAccount e with
      | some a =>
          if (gs.find? (fun g => g.1 = a)).isSome then
            gs.map (fun g => if g.1 = a then (g.1, e :: g.2) else g)
          else (a, [e]) :: gs
      | none => gs

/-- `pad(entries, optionsMap)` from `src/unnamed/part_013` lines 28–152.

The body of the per-account loop begins with
`const isChild = account.parentMatcher(account);`
inside `for (const [account, padList] of Object.entries(padDict).sort())`:
the loop binding `account` — a string — shadows the imported `account`
module, and strings have no `parentMatcher` method, so the first iteration
throws a `TypeError`.  Hence `pad` throws whenever at least one `Pad`
directive is present.  When no `Pad` is present the per-account loop has no
iterations and the final splice loop pushes every entry unchanged and finds
no `Pad` to splice after, returning the entries and an empty error list. -/
def pad (entries : List PDirective) : Except String (List PDirective × List PadErr) :=
  let pads := entries.filter isPad
  let padDict := padGroups pads
  match padDict with
  | [] => .ok (entries.foldl (fun acc e => acc ++ [e]) [], [])
  | _ :: _ => .error "TypeError: account.parentMatcher is not a function"

end Padp

/-! ## Interpolation (`parser/booking_full` = `src/unnamed/part_008`, first
section)

Values a posting's numeric slots can hold in JavaScript at this stage:
a `Decimal`, the `MISSING` sentinel, or `null` (for the `CostSpec` slots). -/

namespace Booking

inductive MissingType
  | UNITS
  | COST_PER
  | COST_TOTAL
  | PRICE
deriving DecidableEq, Repr

/-- A `Decimal`-or-`MISSING` slot. -/
inductive NVal
  | dec (q : ℚ)
  | missing
deriving DecidableEq, Repr

/-- A `Decimal`-or-`MISSING`-or-`null` slot (`CostSpec.numberPer/numberTotal`). -/
inductive SVal
  | dec (q : ℚ)
  | missing
  | nullv
deriving DecidableEq, Repr

structure BAmount where
  number : NVal
  currency : String
deriving DecidableEq, Repr

/-- A posting's cost slot: either an unbound `CostSpec` or a bound `Cost`. -/
inductive BCost
  | spec (numberPer : SVal) (numberTotal : SVal) (currency : String)
      (date : Option ℕ) (label : Option String)
  | bound (number : SVal) (currency : String) (date : Option ℕ)
      (label : Option String)
deriving DecidableEq, Repr

structure BPosting where
  account : String
  units : BAmount
  cost : Option BCost
  price : Option BAmount
  lineno : ℕ
deriving DecidableEq, Repr

structure IErr where
  lineno : ℕ
  message : String
deriving DecidableEq, Repr

/-- The slot scan of `interpolateGroup` for one posting, in source order:
missing units, then missing cost-per and cost-total of a `CostSpec`, then a
missing price.  A *bound* cost whose number is not a `Decimal` makes the scan
throw (`Internal error: cost has no number`), modelled as `none`. -/
def postingIncomplete (p : BPosting) (idx : ℕ) : Option (List (MissingType × ℕ)) :=
  let u : List (MissingType × ℕ) :=
    if p.units.number = NVal.missing then [(MissingType.UNITS, idx)] else []
  match p.cost with
  | some (.spec per total _ _ _) =>
      some (u ++ (if per = SVal.missing then [(MissingType.COST_PER, idx)] else [])
        ++ (if total = SVal.missing then [(MissingType.COST_TOTAL, idx)] else [])
        ++ (match p.price with
            | some pr => if pr.number = NVal.missing then [(MissingType.PRICE, idx)] else []
            | none => []))
  | some (.bound n _ _ _) =>
      match n with
      | .dec _ =>
          some (u ++ (match p.price with
            | some pr => if pr.number = NVal.missing then [(MissingType.PRICE, idx)] else []
            | none => []))
      | _ => none
  | none =>
      some (u ++ (match p.price with
        | some pr => if pr.number = NVal.missing then [(MissingType.PRICE, idx)] else []
        | none => []))

def collectIncompleteFrom : List BPosting → ℕ → Option (List (MissingType × ℕ))
  | [], _ => some []
  | p :: rest, idx =>
      match postingIncomplete p idx, collectIncompleteFrom rest (idx + 1) with
      | some here, some there => some (here ++ there)
      | _, _ => none

/-- The `postings.forEach` of `interpolateGroup` collecting the `incomplete`
list of missing slots (with the index of the posting holding each). -/
def collectIncomplete (postings : List BPosting) : Option (List (MissingType × ℕ)) :=
  collectIncompleteFrom postings 0

/-- `convertCostspecToCost(posting)`: bind an unbound `CostSpec` to a `Cost`
with `unit_cost = (number_total + number_per × |units|) / |units|` (dropping
the per-term when `numberPer` is `MISSING`, and taking `numberPer` alone when
`numberTotal` is `null`).  Slots that still hold `MISSING`/non-decimal values
where a `Decimal` is required make the JS throw, modelled as `none`. -/
def convertCostspecToCost (p : BPosting) : Option BPosting :=
  match p.cost with
  | some (.spec per total currency date label) =>
      match total with
      | .dec t =>
          (match p.units.number with
           | .dec u =>
               let au := abs u
               (match per with
                | .dec pq =>
                    let c : BCost := .bound (.dec ((t + pq * au) / au)) currency date label
                    some { p with cost := some c }
                | .missing =>
                    let c : BCost := .bound (.dec (t / au)) currency date label
                    some { p with cost := some c }
                | .nullv => none)
           | .missing => none)
      | .missing => none
      | .nullv =>
          (match per with
           | .dec pq =>
               let c : BCost := .bound (.dec pq) currency date label
               some { p with cost := some c }
           | .missing =>
               let c : BCost := .bound .missing currency date label
               some { p with cost := some c }
           | .nullv =>
               let c : BCost := .bound .nullv currency date label
               some { p with cost := some c })
  | _ => some p

def metaAt (postings : List BPosting) (idx : ℕ) : ℕ :=
  ((postings.get? idx).map (fun p => p.lineno)).getD 0

/-- `interpolateGroup(postings, balances, currency, tolerances)` from
`src/unnamed/part_008` lines 339–407.  With no missing slot, every posting is
converted with `convertCostspecToCost`; with more than one, a single
`InterpolationError` is emitted and no postings are returned; with exactly
one, the source's `else` branch returns the undeclared variable
`outPostings`, a `ReferenceError` — modelled as `none`. -/
def interpolateGroup (postings : List BPosting) (currency : String) :
    Option (List BPosting × List IErr × Bool) :=
  match collectIncomplete postings with
  | none => none
  | some incomplete =>
      match incomplete with
      | [] =>
          match postings.mapM convertCostspecToCost with
          | some outPostings => some (outPostings, [], false)
          | none => none
      | [_] => none
      | (_, postingIndex) :: _ :: _ =>
          some ([], [⟨metaAt postings postingIndex,
            "Too many missing numbers for currency group " ++ "'" ++ currency ++ "'"⟩],
            false)

/-- `SVal.nullv` in `convertCostspecToCost` above: `numberTotal !== null` is
*true* for the `MISSING` symbol in JS, and `MISSING.plus`/`MISSING.div` then
throws — hence the `.missing => none` arm under `total`. -/
theorem convertCostspec_total_missing (p : BPosting) (per : SVal)
    (currency : String) (date : Option ℕ) (label : Option String)
    (h : p.cost = some (.spec per .missing currency date label)) :
    convertCostspecToCost p = none := by
  simp [convertCostspecToCost, h]

end Booking

/-! ## Amount arithmetic (`accelledger/core/amount.js`)

An `Amount.number` at this interface is a `Decimal`, `null`, or the `MISSING`
sentinel (the constructor converts JS numbers and strings to `Decimal` and
passes the other two through). -/

namespace Amt

inductive ANum
  | dec (q : ℚ)
  | missing
  | nullv
deriving DecidableEq, Repr

structure Amount where
  number : ANum
  currency : String
deriving DecidableEq, Repr

/-- `number instanceof Decimal`. -/
def isDec : ANum → Bool
  | .dec _ => true
  | _ => false

/-- `add(amount1, amount2)` from `accelledger/core/amount.js` lines 96–106:
throw on a currency mismatch; return the `Decimal` sum when both numbers are
`Decimal`s, and `new Decimal(0)` otherwise. -/
def add (a1 a2 : Amount) : Except String Amount :=
  if ¬ a1.currency = a2.currency then
    .error "Unmatching currencies for operation"
  else
    .ok ⟨match a1.number, a2.number with
         | .dec x, .dec y => .dec (x + y)
         | _, _ => .dec 0,
         a1.currency⟩

/-- `sub(amount1, amount2)` from `accelledger/core/amount.js` lines 108–118. -/
def sub (a1 a2 : Amount) : Except String Amount :=
  if ¬ a1.currency = a2.currency then
    .error "Unmatching currencies for operation"
  else
    .ok ⟨match a1.number, a2.number with
         | .dec x, .dec y => .dec (x - y)
         | _, _ => .dec 0,
         a1.currency⟩

end Amt

/-! ## Account names (`src/unnamed/part_001` third section, and
`src/unnamed/part_005` second section)

`part_001` builds `ACCOUNT_RE` as the anchored pattern `^TYPE(:NAME)+$` with
`TYPE = [A-Z][a-zA-Z0-9\-]*` and `NAME = [A-Z0-9][a-zA-Z0-9\-]*`.

`part_005` writes its component literals with the Unicode property classes
`\p{Lu}`, `\p{L}`, `\p{Nd}` under the `u` flag, but then rebuilds
`ACCOUNT_RE` with `new RegExp` from their `.source` strings and *no flags*.
`RegExp.prototype.source` does not carry flags, so the rebuilt regex runs in
non-Unicode (Annex B) mode, where `\p` inside a character class is the
identity escape for the letter `p` and the braces and property names are
literal class members: `[\p{Lu}]` denotes the five characters p `{` L u `}`,
`[\p{L}\p{Nd}\-]` denotes p `{` L `}` N d and the hyphen, and
`[\p{Lu}\p{Nd}]` denotes p `{` L u `}` N d.  The rebuilt pattern is also
unanchored, so its `test` succeeds whenever *some substring* matches the
degenerate pattern.

Since `':'` belongs to none of the character classes (in either variant),
each regex's language is recognized by the evident four-state automaton
(`accStep`, resp. `p5Step`); `fullMatch` is the anchored `part_001` matcher
and `isValidP5` the unanchored `part_005` one. -/

namespace Account

def isUpperA (c : Char) : Bool := 65 ≤ c.toNat ∧ c.toNat ≤ 90
def isLowerA (c : Char) : Bool := 97 ≤ c.toNat ∧ c.toNat ≤ 122
def isDigitA (c : Char) : Bool := 48 ≤ c.toNat ∧ c.toNat ≤ 57

/-- `[A-Z]` — the first character of the type component. -/
def typeStart (c : Char) : Bool := isUpperA c

/-- `[a-zA-Z0-9\-]` — the continuation class of both components. -/
def compRest (c : Char) : Bool := isUpperA c || isLowerA c || isDigitA c || c = '-'

/-- `[A-Z0-9]` — the first character of a name component. -/
def nameStart (c : Char) : Bool := isUpperA c || isDigitA c

inductive AccSt
  | start
  | intype
  | expname
  | inname
  | reject
deriving DecidableEq, Repr

def accStep : AccSt → Char → AccSt
  | .start, c => if typeStart c then .intype else .reject
  | .intype, c => if c = ':' then .expname else if compRest c then .intype else .reject
  | .expname, c => if nameStart c then .inname else .reject
  | .inname, c => if c = ':' then .expname else if compRest c then .inname else .reject
  | .reject, _ => .reject

def runAcc (l : List Char) : AccSt := l.foldl accStep .start

/-- The anchored regex `^TYPE(:NAME)+$` as a whole-list matcher. -/
def fullMatch (l : List Char) : Bool := runAcc l = .inname

/-- `isValid` of the account module in `src/unnamed/part_001` (lines
353–368): `ACCOUNT_RE` is built with `^` and `$`, so `test` demands that the
entire string match. -/
def isValid (s : String) : Bool := fullMatch s.data

/-- `[\p{Lu}]` in a flag-less `RegExp`: the literal characters p `{` L u `}`. -/
def p5TypeStart (c : Char) : Bool :=
  c = 'p' || c = '{' || c = 'L' || c = 'u' || c = '}'

/-- `[\p{L}\p{Nd}\-]` in a flag-less `RegExp`: the literal characters
p `{` L `}` N d and the hyphen. -/
def p5Rest (c : Char) : Bool :=
  c = 'p' || c = '{' || c = 'L' || c = '}' || c = 'N' || c = 'd' || c = '-'

/-- `[\p{Lu}\p{Nd}]` in a flag-less `RegExp`: the literal characters
p `{` L u `}` N d. -/
def p5NameStart (c : Char) : Bool := p5TypeStart c || c = 'N' || c = 'd'

/-- The automaton of the degenerate `part_005` pattern (same construction as
`accStep`: `':'` lies in none of the literal classes). -/
def p5Step : AccSt → Char → AccSt
  | .start, c => if p5TypeStart c then .intype else .reject
  | .intype, c => if c = ':' then .expname else if p5Rest c then .intype else .reject
  | .expname, c => if p5NameStart c then .inname else .reject
  | .inname, c => if c = ':' then .expname else if p5Rest c then .inname else .reject
  | .reject, _ => .reject

/-- Whole-list matcher for the degenerate `part_005` pattern. -/
def p5FullMatch (l : List Char) : Bool := l.foldl p5Step .start = .inname

/-- `isValid` of the account module in `src/unnamed/part_005` (lines
340–351): `ACCOUNT_RE` is rebuilt by `new RegExp` from the components'
`.source` with no flags, so the `\p{...}` classes degrade to the literal
character sets above, and the pattern has no anchors, so `test` succeeds iff
some substring (a contiguous slice) matches the degenerate pattern. -/
def isValidP5 (s : String) : Bool :=
  s.data.tails.any (fun t => t.inits.any p5FullMatch)

/-- Claim-side grammar: a type component. -/
def TypeComp (w : List Char) : Prop :=
  ∃ c cs, w = c :: cs ∧ typeStart c = true ∧ ∀ x ∈ cs, compRest x = true

/-- Claim-side grammar: a name component. -/
def NameComp (w : List Char) : Prop :=
  ∃ c cs, w = c :: cs ∧ nameStart c = true ∧ ∀ x ∈ cs, compRest x = true

/-- Claim-side grammar: the full account-name shape — a type component
followed by one or more name components, joined by `':'`. -/
def AccountL (l : List Char) : Prop :=
  ∃ t comps, l = t ++ (comps.map (fun w => ':' :: w)).flatten ∧
    comps ≠ [] ∧ TypeComp t ∧ ∀ w ∈ comps, NameComp w

/-- "The entire string `s` matches the account-name grammar." -/
def accountGrammar (s : String) : Prop := AccountL s.data

/-- A string of the shape matched just before a `':'`: a type component or a
complete account name, then the colon. -/
def PreColon (l : List Char) : Prop :=
  ∃ m, l = m ++ [':'] ∧ (TypeComp m ∨ AccountL m)

end Account

/-! ## Theorems: inventory (claims C1, C3, C8) -/

namespace Inv

namespace Inventory

theorem get_eq_none_iff (inv : Inventory) (k : InvKey) :
    get inv k = none ↔ ∀ e ∈ inv, ¬ e.1 = k := by
  simp [get, List.find?_eq_none]

theorem get_cons (e : InvKey × Position) (rest : Inventory) (k : InvKey) :
    get (e :: rest) k = if e.1 = k then some e.2 else get rest k := by
  by_cases h : e.1 = k <;> simp [get, List.find?_cons, h]

theorem get_mem {inv : Inventory} {k : InvKey} {p : Position}
    (h : get inv k = some p) : (k, p) ∈ inv := by
  induction inv with
  | nil => simp [get] at h
  | cons e rest ih =>
      rw [get_cons] at h
      by_cases he : e.1 = k
      · rw [if_pos he] at h
        have hp : e.2 = p := by injection h
        have : e = (k, p) := by
          cases e
          simp only at he hp
          rw [he, hp]
        rw [← this]
        exact List.mem_cons_self e rest
      · rw [if_neg he] at h
        exact List.mem_cons_of_mem _ (ih h)

theorem get_setk (inv : Inventory) (k : InvKey) (v : Position) :
    get (setk inv k v) k = some v := by
  induction inv with
  | nil => simp [setk, get_cons]
  | cons e rest ih =>
      by_cases he : e.1 = k
      · simp [setk, he, get_cons]
      · simp [setk, he, get_cons, ih]

theorem get_setk_ne (inv : Inventory) {k k2 : InvKey} (v : Position)
    (h : ¬ k2 = k) : get (setk inv k v) k2 = get inv k2 := by
  have h2 : ¬ k = k2 := fun hh => h hh.symm
  induction inv with
  | nil => simp [setk, get_cons, h2, get]
  | cons e rest ih =>
      by_cases he : e.1 = k
      · have he2 : ¬ e.1 = k2 := by rw [he]; exact h2
        simp [setk, he, get_cons, h2, he2]
      · simp [setk, he, get_cons, ih]

theorem get_del (inv : Inventory) (k : InvKey) : get (del inv k) k = none := by
  rw [get_eq_none_iff]
  intro e he
  have := List.of_mem_filter he
  simpa using this

theorem get_del_ne (inv : Inventory) {k k2 : InvKey} (h : ¬ k2 = k) :
    get (del inv k) k2 = get inv k2 := by
  induction inv with
  | nil => simp [del, get]
  | cons e rest ih =>
      by_cases he : e.1 = k
      · have hkk2 : ¬ k = k2 := fun hh => h hh.symm
        simp [del, List.filter_cons, he, get_cons, hkk2] at ih ⊢
        exact ih
      · simp [del, List.filter_cons, he, get_cons] at ih ⊢
        by_cases he2 : e.1 = k2
        · simp [he2]
        · simp [he2, ih]

theorem setk_absent {inv : Inventory} {k : InvKey} (v : Position)
    (h : get inv k = none) : setk inv k v = inv ++ [(k, v)] := by
  induction inv with
  | nil => simp [setk]
  | cons e rest ih =>
      rw [get_eq_none_iff] at h
      have he : ¬ e.1 = k := h e (by simp)
      have hrest : get rest k = none := by
        rw [get_eq_none_iff]; intro f hf; exact h f (by simp [hf])
      simp [setk, he, ih hrest]

theorem mem_setk {inv : Inventory} {k : InvKey} {v : Position} {e : InvKey × Position}
    (h : e ∈ setk inv k v) : e = (k, v) ∨ e ∈ inv := by
  induction inv with
  | nil => simpa [setk] using h
  | cons f rest ih =>
      by_cases hf : f.1 = k
      · simp only [setk, hf, if_true, List.mem_cons] at h
        rcases h with h | h
        · exact Or.inl h
        · exact Or.inr (by simp [h])
      · simp only [setk, hf, if_false, List.mem_cons] at h
        rcases h with h | h
        · exact Or.inr (by simp [h])
        · rcases ih h with h2 | h2
          · exact Or.inl h2
          · exact Or.inr (by simp [h2])

theorem map_fst_setk_present {inv : Inventory} {k : InvKey} {p : Position}
    (v : Position) (h : get inv k = some p) :
    (setk inv k v).map (fun e => e.1) = inv.map (fun e => e.1) := by
  induction inv with
  | nil => simp [get] at h
  | cons e rest ih =>
      by_cases he : e.1 = k
      · simp [setk, he]
      · have hrest : get rest k = some p := by
          simpa [get, List.find?, he] using h
        simp [setk, he, ih hrest]

/-- **C1.** `Inventory.addAmount(units, cost)`: with no entry at the key
`(units.currency, cost-identity)` the outcome is IGNORED when `units.number`
is zero (nothing changes) and CREATED otherwise, with the position inserted;
with an existing entry the outcome is REDUCED when the sign of the existing
position's units differs from that of the new units and AUGMENTED otherwise,
the numbers are summed, the entry is removed exactly when the sum is zero,
and the prior position is returned with the outcome. -/
theorem C1_addAmount_outcomes (inv : Inventory) (u : Amount) (c : Option Cost) :
    (get inv (invKey u c) = none ∧ u.number = 0 →
        addAmount inv u c = (inv, none, MatchResult.IGNORED))
    ∧ (get inv (invKey u c) = none ∧ ¬ u.number = 0 →
        (addAmount inv u c).2 = (none, MatchResult.CREATED)
        ∧ get (addAmount inv u c).1 (invKey u c) = some ⟨u, c⟩)
    ∧ (∀ p, get inv (invKey u c) = some p →
        (addAmount inv u c).2.1 = some p
        ∧ (addAmount inv u c).2.2 =
            (if sameSign p.units.number u.number then MatchResult.AUGMENTED
             else MatchResult.REDUCED)
        ∧ (get (addAmount inv u c).1 (invKey u c) = none ↔
            p.units.number + u.number = 0)
        ∧ (¬ p.units.number + u.number = 0 →
            get (addAmount inv u c).1 (invKey u c) =
              some ⟨⟨p.units.number + u.number, u.currency⟩, c⟩)) := by
  refine ⟨?_, ?_, ?_⟩
  · rintro ⟨hg, hz⟩
    simp [addAmount, hg, hz]
  · rintro ⟨hg, hz⟩
    refine ⟨by simp [addAmount, hg, hz], ?_⟩
    simp only [addAmount, hg, hz, if_false]
    exact get_setk inv (invKey u c) ⟨u, c⟩
  · intro p hg
    by_cases hs : p.units.number + u.number = 0
    · refine ⟨by simp [addAmount, hg], by simp [addAmount, hg], ?_, ?_⟩
      · simp only [addAmount, hg, hs, if_true]
        simp [get_del, hs]
      · intro hcon; exact absurd hs hcon
    · refine ⟨by simp [addAmount, hg], by simp [addAmount, hg], ?_, ?_⟩
      · simp only [addAmount, hg, hs, if_false]
        rw [get_setk]
        simp [hs]
      · intro _
        simp only [addAmount, hg, hs, if_false]
        exact get_setk inv (invKey u c) _

/-- The inventory invariant of the spec: no stored position has zero units
and no two bindings share a `(currency, cost-identity)` key. -/
def wfInventory (inv : Inventory) : Prop :=
  (inv.map (fun e => e.1)).Nodup ∧ ∀ e ∈ inv, ¬ e.2.units.number = 0

/-- The inventories reachable from an empty inventory by `addAmount`,
`addPosition`, `addInventory` and `average`. -/
inductive ReachableInv : Inventory → Prop
  | empty : ReachableInv []
  | addAmount (inv : Inventory) (u : Amount) (c : Option Cost) :
      ReachableInv inv → ReachableInv (addAmount inv u c).1
  | addPosition (inv : Inventory) (p : Position) :
      ReachableInv inv → ReachableInv (addPosition inv p).1
  | addInventory (inv other : Inventory) :
      ReachableInv inv → ReachableInv other → ReachableInv (addInventory inv other)
  | average (inv : Inventory) : ReachableInv inv → ReachableInv (average inv)

theorem wf_addAmount (inv : Inventory) (u : Amount) (c : Option Cost)
    (h : wfInventory inv) : wfInventory (addAmount inv u c).1 := by
  obtain ⟨hnd, hnz⟩ := h
  cases hg : get inv (invKey u c) with
  | none =>
      by_cases hz : u.number = 0
      · simpa [addAmount, hg, hz] using ⟨hnd, hnz⟩
      · simp only [addAmount, hg, hz, if_false]
        rw [setk_absent _ hg]
        constructor
        · rw [List.map_append, List.nodup_append]
          refine ⟨hnd, by simp, ?_⟩
          intro a ha hb
          simp only [List.map_cons, List.map_nil, List.mem_singleton] at hb
          subst hb
          rw [get_eq_none_iff] at hg
          simp only [List.mem_map] at ha
          obtain ⟨e, he, hke⟩ := ha
          exact hg e he hke
        · intro e he
          rcases List.mem_append.mp he with h1 | h1
          · exact hnz e h1
          · simp only [List.mem_singleton] at h1
            subst h1
            simpa using hz
  | some p =>
      by_cases hs : p.units.number + u.number = 0
      · simp only [addAmount, hg, hs, if_true]
        constructor
        · exact ((List.filter_sublist inv).map _).nodup hnd
        · intro e he
          exact hnz e (List.mem_of_mem_filter he)
      · simp only [addAmount, hg, hs, if_false]
        constructor
        · rw [map_fst_setk_present _ hg]
          exact hnd
        · intro e he
          rcases mem_setk he with h1 | h1
          · subst h1; simpa using hs
          · exact hnz e h1

theorem wf_foldAddPos (ps : List Position) :
    ∀ inv : Inventory, wfInventory inv →
      wfInventory (ps.foldl (fun acc p => (addPosition acc p).1) inv) := by
  induction ps with
  | nil => intro inv h; exact h
  | cons p rest ih =>
      intro inv h
      exact ih _ (wf_addAmount inv p.units p.cost h)

theorem wf_averageStep (acc : Inventory) (g : (String × Option String) × List Position)
    (h : wfInventory acc) : wfInventory (averageStep acc g) := by
  unfold averageStep
  by_cases hz : g.2.foldl (fun s p => s + p.units.number) 0 = 0
  · simpa [hz] using h
  · cases hc : g.2.head?.bind (fun p => p.cost) with
    | none => simpa [hz, hc] using wf_addAmount acc _ _ h
    | some c0 => simpa [hz, hc] using wf_addAmount acc _ _ h

theorem wf_average (inv : Inventory) : wfInventory (average inv) := by
  unfold average
  generalize groupByKey avgKey (getPositions inv) = gs
  have main : ∀ (l : List ((String × Option String) × List Position))
      (acc : Inventory), wfInventory acc → wfInventory (l.foldl averageStep acc) := by
    intro l
    induction l with
    | nil => intro acc h; exact h
    | cons g rest ih =>
        intro acc h
        exact ih _ (wf_averageStep acc g h)
  exact main gs [] ⟨List.nodup_nil, by simp⟩

/-- **C3.** Every inventory reachable by any sequence of `addAmount`,
`addPosition`, `addInventory` and `average` from the empty inventory stores
no position with zero units, and no two stored positions share a
`(currency, cost-identity)` key. -/
theorem C3_reachable_wf (inv : Inventory) (h : ReachableInv inv) :
    wfInventory inv := by
  induction h with
  | empty => exact ⟨List.nodup_nil, by simp⟩
  | addAmount inv u c _ ih => exact wf_addAmount inv u c ih
  | addPosition inv p _ ih => exact wf_addAmount inv p.units p.cost ih
  | addInventory inv other _ _ ih1 ih2 =>
      unfold addInventory
      by_cases he : inv.isEmpty
      · simpa [he] using ih2
      · simpa [he] using wf_foldAddPos (getPositions other) inv ih1
  | average inv _ _ => exact wf_average inv

/-- C3 witness: the inventory holding one unit of USD is reachable and
well-formed. -/
theorem C3_witness : wfInventory (addAmount [] ⟨1, "USD"⟩ none).1 :=
  C3_reachable_wf _ (ReachableInv.addAmount [] ⟨1, "USD"⟩ none ReachableInv.empty)

/-- Costs with a truthy (or absent) label: on these, `Cost.toString` — the
identity the inventory keys with — determines the cost value. -/
def costLabelOk : Option Cost → Bool
  | some c => ¬ c.label = some ""
  | none => true

theorem costKey_inj {c1 c2 : Cost} (h1 : ¬ c1.label = some "")
    (h2 : ¬ c2.label = some "") (h : c1.key = c2.key) : c1 = c2 := by
  obtain ⟨n1, cu1, d1, l1⟩ := c1
  obtain ⟨n2, cu2, d2, l2⟩ := c2
  simp only [Cost.key, CostKey.mk.injEq] at h
  obtain ⟨hn, hc, hd, hl⟩ := h
  simp only at h1 h2
  rw [if_neg h1, if_neg h2] at hl
  simp [hn, hc, hd, hl]

theorem costKeyOpt_inj {o1 o2 : Option Cost} (h1 : costLabelOk o1 = true)
    (h2 : costLabelOk o2 = true) (h : o1.map Cost.key = o2.map Cost.key) :
    o1 = o2 := by
  cases o1 with
  | none => cases o2 with
    | none => rfl
    | some c2 => simp at h
  | some c1 => cases o2 with
    | none => simp at h
    | some c2 =>
        simp only [Option.map, Option.some.injEq] at h
        simp only [costLabelOk, decide_eq_true_eq] at h1 h2
        rw [costKey_inj h1 h2 h]

/-- A well-formed inventory state, as the structure itself produces them:
each binding sits at the key derived from its own position, no position has
zero units (the documented invariant, `checkInvariants`), and stored cost
labels are not the empty string (so the cost identity used by the key
determines the stored cost). -/
def ValidInv (inv : Inventory) : Prop :=
  (∀ e ∈ inv, e.1 = invKey e.2.units e.2.cost)
  ∧ (∀ e ∈ inv, ¬ e.2.units.number = 0)
  ∧ (∀ e ∈ inv, costLabelOk e.2.cost = true)

theorem addAmount_none_zero {inv : Inventory} {u : Amount} {c : Option Cost}
    (h : get inv (invKey u c) = none) (hz : u.number = 0) :
    addAmount inv u c = (inv, none, MatchResult.IGNORED) := by
  simp [addAmount, h, hz]

theorem addAmount_none_nonzero {inv : Inventory} {u : Amount} {c : Option Cost}
    (h : get inv (invKey u c) = none) (hz : ¬ u.number = 0) :
    addAmount inv u c = (setk inv (invKey u c) ⟨u, c⟩, none, MatchResult.CREATED) := by
  simp [addAmount, h, hz]

theorem addAmount_some_zero {inv : Inventory} {u : Amount} {c : Option Cost}
    {p : Position} (h : get inv (invKey u c) = some p)
    (hs : p.units.number + u.number = 0) :
    (addAmount inv u c).1 = del inv (invKey u c) := by
  simp [addAmount, h, hs]

theorem addAmount_some_nonzero {inv : Inventory} {u : Amount} {c : Option Cost}
    {p : Position} (h : get inv (invKey u c) = some p)
    (hs : ¬ p.units.number + u.number = 0) :
    (addAmount inv u c).1
      = setk inv (invKey u c) ⟨⟨p.units.number + u.number, u.currency⟩, c⟩ := by
  simp [addAmount, h, hs]

/-- **C8.** On a well-formed inventory, `addAmount(x, cost)` followed by
`addAmount(-x, cost)` restores every binding: the inventory is equal, as a
map, to its prior state. -/
theorem C8_addAmount_cancel (inv : Inventory) (u : Amount) (c : Option Cost)
    (hv : ValidInv inv) (hc : costLabelOk c = true) (k : InvKey) :
    get (addAmount (addAmount inv u c).1 ⟨-u.number, u.currency⟩ c).1 k
      = get inv k := by
  obtain ⟨hcons, hnz, hlab⟩ := hv
  have hkeq : invKey (⟨-u.number, u.currency⟩ : Amount) c = invKey u c := rfl
  cases hg : get inv (invKey u c) with
  | none =>
      by_cases hz : u.number = 0
      · have h1 : (addAmount inv u c).1 = inv := by
          rw [addAmount_none_zero hg hz]
        rw [h1]
        have h2 : addAmount inv ⟨-u.number, u.currency⟩ c = (inv, none, MatchResult.IGNORED) :=
          addAmount_none_zero hg (by simpa using hz)
        rw [h2]
      · have h1 : (addAmount inv u c).1 = setk inv (invKey u c) ⟨u, c⟩ := by
          rw [addAmount_none_nonzero hg hz]
        rw [h1]
        have hget1 : get (setk inv (invKey u c) ⟨u, c⟩) (invKey u c) = some ⟨u, c⟩ :=
          get_setk inv (invKey u c) ⟨u, c⟩
        have h2 := addAmount_some_zero hget1
          (p := ⟨u, c⟩) (u := ⟨-u.number, u.currency⟩) (by simp)
        rw [hkeq] at h2
        rw [h2]
        by_cases hk : k = invKey u c
        · subst hk
          rw [get_del, hg]
        · rw [get_del_ne _ hk, get_setk_ne _ _ hk]
  | some p =>
      have hmem := get_mem hg
      have hpnz : ¬ p.units.number = 0 := hnz _ hmem
      have hpcons : invKey u c = invKey p.units p.cost := hcons (invKey u c, p) hmem
      have hcur : u.currency = p.units.currency := congrArg Prod.fst hpcons
      have hck : c.map Cost.key = p.cost.map Cost.key := congrArg Prod.snd hpcons
      have hceq : c = p.cost := costKeyOpt_inj hc (hlab _ hmem) hck
      by_cases hs : p.units.number + u.number = 0
      · have h1 : (addAmount inv u c).1 = del inv (invKey u c) :=
          addAmount_some_zero hg hs
        rw [h1]
        have hg2 : get (del inv (invKey u c)) (invKey u c) = none :=
          get_del inv (invKey u c)
        have hun : ¬ u.number = 0 := by
          intro hh
          rw [hh, add_zero] at hs
          exact hpnz hs
        have h2 := addAmount_none_nonzero hg2
          (u := ⟨-u.number, u.currency⟩) (by simpa using hun)
        rw [hkeq] at h2
        rw [congrArg Prod.fst h2]
        by_cases hk : k = invKey u c
        · subst hk
          rw [get_setk, hg]
          have hpn : p.units.number = -u.number := by linarith
          obtain ⟨⟨pn, pc⟩, pcost⟩ := p
          simp only at hpn hcur hceq
          rw [hpn, hcur, hceq]
        · rw [get_setk_ne _ _ hk, get_del_ne _ hk]
      · have h1 : (addAmount inv u c).1
            = setk inv (invKey u c) ⟨⟨p.units.number + u.number, u.currency⟩, c⟩ :=
          addAmount_some_nonzero hg hs
        rw [h1]
        have hget1 : get (setk inv (invKey u c)
              ⟨⟨p.units.number + u.number, u.currency⟩, c⟩) (invKey u c)
            = some ⟨⟨p.units.number + u.number, u.currency⟩, c⟩ :=
          get_setk inv (invKey u c) _
        have hs2 : ¬ p.units.number + u.number + -u.number = 0 := by
          simpa using hpnz
        have h2 := addAmount_some_nonzero hget1
          (u := ⟨-u.number, u.currency⟩) hs2
        rw [hkeq] at h2
        rw [h2]
        by_cases hk : k = invKey u c
        · subst hk
          rw [get_setk, hg]
          have hpn : p.units.number + u.number + -u.number = p.units.number := by ring
          obtain ⟨⟨pn, pc⟩, pcost⟩ := p
          simp only at hpn hcur hceq
          rw [hpn, hcur, hceq]
        · rw [get_setk_ne _ _ hk, get_setk_ne _ _ hk]

def c8Inv : Inventory := [(("USD", none), ⟨⟨2, "USD"⟩, none⟩)]

/-- C8 witness: adding 3 USD then −3 USD to the inventory holding 2 USD
leaves the binding at the USD key unchanged. -/
theorem C8_witness :
    get (addAmount (addAmount c8Inv ⟨3, "USD"⟩ none).1 ⟨-3, "USD"⟩ none).1
        ("USD", none)
      = get c8Inv ("USD", none) :=
  C8_addAmount_cancel c8Inv ⟨3, "USD"⟩ none
    ⟨by decide, by decide, by decide⟩ (by decide) ("USD", none)

/-- A cost whose label is the empty string.  `Cost.toString` omits a falsy
label, so this cost renders — and is keyed — exactly like `c8CostB`. -/
def c8CostA : Cost := ⟨5, "USD", none, some ""⟩

/-- The same cost with a null label: a different `Cost` value sharing the
inventory key of `c8CostA`. -/
def c8CostB : Cost := ⟨5, "USD", none, none⟩

/-- **C8, counterexample.**  The claim fails without the label proviso: an
inventory holding 2 USD at cost `c8CostA` (label `""`) — itself produced by a
single `addAmount` from empty — is keyed identically to cost `c8CostB`
(label null), and `addAmount` stores the *argument's* cost on augmenting, so
`addAmount(3 USD, c8CostB)` followed by `addAmount(-3 USD, c8CostB)` leaves
the binding's cost as `c8CostB`, not the prior `c8CostA`: the inventory is
not restored. -/
theorem C8_counterexample :
    ∃ inv1 : Inventory,
      (addAmount [] ⟨2, "USD"⟩ (some c8CostA)).1 = inv1
      ∧ invKey (⟨3, "USD"⟩ : Amount) (some c8CostB)
          = invKey (⟨2, "USD"⟩ : Amount) (some c8CostA)
      ∧ ¬ (addAmount (addAmount inv1 ⟨3, "USD"⟩ (some c8CostB)).1
            ⟨-3, "USD"⟩ (some c8CostB)).1 = inv1 :=
  ⟨(addAmount [] ⟨2, "USD"⟩ (some c8CostA)).1, rfl,
    by with_unfolding_all decide, by with_unfolding_all decide⟩

end Inventory

end Inv

/-! ## Theorems: entry sorting (claim C4) -/

namespace Sorting

instance : IsTotal Entry (fun a b => a.date ≤ b.date) :=
  ⟨fun a b => Nat.le_total a.date b.date⟩

instance : IsTrans Entry (fun a b => a.date ≤ b.date) :=
  ⟨fun _ _ _ h1 h2 => Nat.le_trans h1 h2⟩

/-- The concrete input refuting C4 as stated: a `Close` and an `Open` on the
same date, the `Close` first in file order.  The loader's sort compares dates
only and is stable, so the `Close` (sort rank +2) stays before the `Open`
(sort rank −2). -/
def c4Input : List Entry :=
  [⟨DKind.closeD, 1, 1⟩, ⟨DKind.openD, 1, 2⟩]

/-- **C4, counterexample.**  The loader's output is not ordered by the
`(date, directive-sort-rank, lineno)` key: on `c4Input` the adjacent pair
violates `entrySortKey`-order, refuting the claim as stated. -/
theorem C4_counterexample :
    ¬ List.Chain' (fun a b => keyLe a b = true) (loaderSortEntries c4Input) := by
  have h : loaderSortEntries c4Input = c4Input := by rfl
  rw [h]
  simp only [c4Input, List.chain'_cons, List.chain'_singleton, and_true]
  decide

/-- **C4, amended.**  The loader (`_load` in `accelledger/loader.js`) sorts
the merged entry list by `(a, b) => a.date - b.date`, i.e. by date alone: for
all adjacent entries `E[i]`, `E[i+1]` of its output, `E[i].date ≤ E[i+1].date`.
The full `(date, directive-sort-rank, lineno)` comparison (with ranks
Open = −2, Balance = −1, Document = +1, Close = +2, default 0) exists as
`sortEntries` in the data module but `_load` does not call it. -/
theorem C4_loader_sorts_by_date (l : List Entry) :
    List.Chain' (fun a b => a.date ≤ b.date) (loaderSortEntries l) :=
  (List.sorted_insertionSort (fun a b => a.date ≤ b.date) l).chain'

/-- `sortEntries` does realize the `(date, rank, lineno)` ordering claimed
for the loader (recorded for the amended claim: the ordering is implemented,
just not invoked by `_load`). -/
theorem sortEntries_sorts_by_key (l : List Entry) :
    List.Chain' (fun a b => keyLe a b = true) (sortEntries l) := by
  have htot : IsTotal Entry (fun a b => keyLe a b = true) := by
    constructor
    intro a b
    simp only [keyLe, decide_eq_true_eq]
    rcases Nat.lt_trichotomy (entrySortKey a).1 (entrySortKey b).1 with h | h | h
    · exact Or.inl (Or.inl h)
    · rcases Int.lt_trichotomy (entrySortKey a).2.1 (entrySortKey b).2.1 with h2 | h2 | h2
      · exact Or.inl (Or.inr ⟨h, Or.inl h2⟩)
      · rcases Nat.le_total (entrySortKey a).2.2 (entrySortKey b).2.2 with h3 | h3
        · exact Or.inl (Or.inr ⟨h, Or.inr ⟨h2, h3⟩⟩)
        · exact Or.inr (Or.inr ⟨h.symm, Or.inr ⟨h2.symm, h3⟩⟩)
      · exact Or.inr (Or.inr ⟨h.symm, Or.inl h2⟩)
    · exact Or.inr (Or.inl h)
  have htrans : IsTrans Entry (fun a b => keyLe a b = true) := by
    constructor
    intro a b c h1 h2
    simp only [keyLe, decide_eq_true_eq] at h1 h2 ⊢
    rcases h1 with h1 | ⟨h1e, h1r⟩
    · rcases h2 with h2 | ⟨h2e, _⟩
      · exact Or.inl (Nat.lt_trans h1 h2)
      · exact Or.inl (h2e ▸ h1)
    · rcases h2 with h2 | ⟨h2e, h2r⟩
      · exact Or.inl (h1e ▸ h2)
      · refine Or.inr ⟨h1e.trans h2e, ?_⟩
        rcases h1r with h1r | ⟨h1re, h1rl⟩
        · rcases h2r with h2r | ⟨h2re, _⟩
          · exact Or.inl (Int.lt_trans h1r h2r)
          · exact Or.inl (h2re ▸ h1r)
        · rcases h2r with h2r | ⟨h2re, h2rl⟩
          · exact Or.inl (h1re ▸ h2r)
          · exact Or.inr ⟨h1re.trans h2re, Nat.le_trans h1rl h2rl⟩
  exact (List.sorted_insertionSort (fun a b => keyLe a b = true) l).chain'

end Sorting

/-! ## Theorems: pad processor (claim C5) -/

namespace Padp

/-- A minimal ledger exercising the pad processor: one `Pad` on
`Assets:Bank` from `Equity:Opening`, then a `Balance` of 500 USD. -/
def c5Input : List PDirective :=
  [PDirective.pad 1 5 "Assets:Bank" "Equity:Opening",
   PDirective.balance 2 10 "Assets:Bank" ⟨500, "USD"⟩]

/-- **C5.**  `pad()` throws a `TypeError` on any input containing a `Pad`
directive (its loop binding `account` shadows the `account` module, and
`"Assets:Bank".parentMatcher` does not exist), so the synthetic padding
transaction the claim (and spec §4.5) describes is never created, and no
"Unused Pad" error is ever reported either. -/
theorem C5_pad_throws_on_any_pad :
    pad c5Input = Except.error "TypeError: account.parentMatcher is not a function" := by
  rfl

end Padp

/-! ## Theorems: interpolation (claim C6) -/

namespace Booking

/-- **C6.**  When the `incomplete` scan of `interpolateGroup` finds more than
one missing slot in a currency group, exactly one `InterpolationError` is
emitted — citing "Too many missing numbers" for that currency group and
sourced at the posting holding the first missing slot — and no completed
postings are produced. -/
theorem C6_too_many_missing (postings : List BPosting) (currency : String)
    (m1 m2 : MissingType × ℕ) (rest : List (MissingType × ℕ))
    (h : collectIncomplete postings = some (m1 :: m2 :: rest)) :
    interpolateGroup postings currency =
      some ([], [⟨metaAt postings m1.2,
        "Too many missing numbers for currency group \x27" ++ currency ++ "\x27"⟩],
        false) := by
  simp [interpolateGroup, h]

/-- Two postings of one group, both with missing units. -/
def c6Postings : List BPosting :=
  [⟨"Expenses:Food", ⟨NVal.missing, "USD"⟩, none, none, 3⟩,
   ⟨"Assets:Cash", ⟨NVal.missing, "USD"⟩, none, none, 4⟩]

/-- C6 witness: the ambiguous-interpolation scenario of the spec, evaluated. -/
theorem C6_witness :
    interpolateGroup c6Postings "USD" =
      some ([], [⟨3,
        "Too many missing numbers for currency group \x27" ++ "USD" ++ "\x27"⟩],
        false) :=
  C6_too_many_missing c6Postings "USD" (MissingType.UNITS, 0) (MissingType.UNITS, 1)
    [] (by rfl)

end Booking

/-! ## Theorems: amount arithmetic (claim C10) -/

namespace Amt

/-- **C10.**  For amounts of equal currency where at least one number is not
a `Decimal` (the `MISSING` sentinel or `null`), `add` and `sub` return an
amount whose number is `Decimal` zero — the sentinel is silently coerced to
zero instead of being propagated or raising an error. -/
theorem C10_missing_coerced_to_zero (a1 a2 : Amount)
    (hcur : a1.currency = a2.currency)
    (hmiss : isDec a1.number = false ∨ isDec a2.number = false) :
    add a1 a2 = Except.ok ⟨ANum.dec 0, a1.currency⟩
    ∧ sub a1 a2 = Except.ok ⟨ANum.dec 0, a1.currency⟩ := by
  constructor <;>
  · simp only [add, sub, hcur]
    rw [if_neg (by simp)]
    rcases hmiss with h | h <;>
      cases h1 : a1.number <;> cases h2 : a2.number <;>
        simp_all [isDec]

/-- C10 witness: `MISSING + 5 USD` and `MISSING − 5 USD` both evaluate to
`0 USD`. -/
theorem C10_witness :
    add ⟨ANum.missing, "USD"⟩ ⟨ANum.dec 5, "USD"⟩ = Except.ok ⟨ANum.dec 0, "USD"⟩
    ∧ sub ⟨ANum.missing, "USD"⟩ ⟨ANum.dec 5, "USD"⟩ = Except.ok ⟨ANum.dec 0, "USD"⟩ :=
  C10_missing_coerced_to_zero ⟨ANum.missing, "USD"⟩ ⟨ANum.dec 5, "USD"⟩ rfl
    (Or.inl rfl)

end Amt

/-! ## Theorems: account names (claim C9) -/

namespace Account

theorem runAcc_snoc (l : List Char) (c : Char) :
    runAcc (l ++ [c]) = accStep (runAcc l) c := by
  simp [runAcc, List.foldl_append]

theorem snoc_inj {α : Type} {l m : List α} {a b : α}
    (h : l ++ [a] = m ++ [b]) : l = m ∧ a = b := by
  have h1 : l = m := by
    have := congrArg List.dropLast h
    simpa using this
  subst h1
  have h2 : a = b := by
    have := congrArg List.getLast? h
    simpa using this
  exact ⟨rfl, h2⟩

theorem accStep_ne_start (s : AccSt) (c : Char) : ¬ accStep s c = AccSt.start := by
  cases s <;> simp only [accStep] <;> (try split_ifs) <;> simp

theorem accStep_eq_intype_iff (s : AccSt) (c : Char) :
    accStep s c = AccSt.intype ↔
      (s = AccSt.start ∧ typeStart c = true)
      ∨ (s = AccSt.intype ∧ ¬ c = ':' ∧ compRest c = true) := by
  cases s <;> simp only [accStep] <;> (try split_ifs) <;> simp_all

theorem accStep_eq_expname_iff (s : AccSt) (c : Char) :
    accStep s c = AccSt.expname ↔
      (s = AccSt.intype ∨ s = AccSt.inname) ∧ c = ':' := by
  cases s <;> simp only [accStep] <;> (try split_ifs) <;> simp_all

theorem accStep_eq_inname_iff (s : AccSt) (c : Char) :
    accStep s c = AccSt.inname ↔
      (s = AccSt.expname ∧ nameStart c = true)
      ∨ (s = AccSt.inname ∧ ¬ c = ':' ∧ compRest c = true) := by
  cases s <;> simp only [accStep] <;> (try split_ifs) <;> simp_all

theorem not_typeComp_nil : ¬ TypeComp [] := by
  rintro ⟨c, cs, h, -, -⟩
  simp at h

theorem not_accountL_nil : ¬ AccountL [] := by
  rintro ⟨t, comps, h, -, ⟨c, cs, rfl, -, -⟩, -⟩
  simp at h

theorem not_preColon_nil : ¬ PreColon [] := by
  rintro ⟨m, h, -⟩
  simp at h

theorem typeComp_single {c : Char} (h : typeStart c = true) : TypeComp [c] :=
  ⟨c, [], rfl, h, by simp⟩

theorem typeComp_snoc {l : List Char} {c : Char} (hl : TypeComp l)
    (hc : compRest c = true) : TypeComp (l ++ [c]) := by
  obtain ⟨c0, cs, rfl, h0, hcs⟩ := hl
  refine ⟨c0, cs ++ [c], by simp, h0, ?_⟩
  intro x hx
  rcases List.mem_append.mp hx with h | h
  · exact hcs x h
  · simp only [List.mem_singleton] at h
    subst h
    exact hc

theorem nameComp_single {c : Char} (h : nameStart c = true) : NameComp [c] :=
  ⟨c, [], rfl, h, by simp⟩

theorem nameComp_snoc {l : List Char} {c : Char} (hl : NameComp l)
    (hc : compRest c = true) : NameComp (l ++ [c]) := by
  obtain ⟨c0, cs, rfl, h0, hcs⟩ := hl
  refine ⟨c0, cs ++ [c], by simp, h0, ?_⟩
  intro x hx
  rcases List.mem_append.mp hx with h | h
  · exact hcs x h
  · simp only [List.mem_singleton] at h
    subst h
    exact hc

theorem accountL_newcomp {l : List Char} {c : Char} (h : PreColon l)
    (hc : nameStart c = true) : AccountL (l ++ [c]) := by
  obtain ⟨m, rfl, hm | hm⟩ := h
  · exact ⟨m, [[c]], by simp, by simp, hm, by
      intro w hw
      simp only [List.mem_singleton] at hw
      subst hw
      exact nameComp_single hc⟩
  · obtain ⟨t, comps, rfl, hne, ht, hcomps⟩ := hm
    refine ⟨t, comps ++ [[c]], by simp, by simp, ht, ?_⟩
    intro w hw
    rcases List.mem_append.mp hw with h | h
    · exact hcomps w h
    · simp only [List.mem_singleton] at h
      subst h
      exact nameComp_single hc

theorem accountL_snoc {l : List Char} {c : Char} (h : AccountL l)
    (hc : compRest c = true) : AccountL (l ++ [c]) := by
  obtain ⟨t, comps, rfl, hne, ht, hcomps⟩ := h
  rcases List.eq_nil_or_concat comps with rfl | ⟨comps0, w, hc2⟩
  · exact absurd rfl hne
  · rw [List.concat_eq_append] at hc2
    subst hc2
    refine ⟨t, comps0 ++ [w ++ [c]], ?_, by simp, ht, ?_⟩
    · simp [List.append_assoc]
    · intro v hv
      rcases List.mem_append.mp hv with h | h
      · exact hcomps v (List.mem_append.mpr (Or.inl h))
      · simp only [List.mem_singleton] at h
        subst h
        exact nameComp_snoc (hcomps w (by simp)) hc

theorem typeComp_snoc_cases {l : List Char} {c : Char} (h : TypeComp (l ++ [c])) :
    (l = [] ∧ typeStart c = true) ∨ (TypeComp l ∧ compRest c = true) := by
  obtain ⟨c0, cs, heq, h0, hcs⟩ := h
  rcases List.eq_nil_or_concat cs with rfl | ⟨cs0, cl, hc2⟩
  · obtain ⟨rfl, rfl⟩ :=
      snoc_inj (by simpa using heq : l ++ [c] = ([] : List Char) ++ [c0])
    exact Or.inl ⟨rfl, h0⟩
  · rw [List.concat_eq_append] at hc2
    subst hc2
    obtain ⟨rfl, rfl⟩ :=
      snoc_inj (by simpa using heq : l ++ [c] = (c0 :: cs0) ++ [cl])
    refine Or.inr ⟨⟨c0, cs0, rfl, h0, ?_⟩, hcs c (by simp)⟩
    intro x hx
    exact hcs x (List.mem_append.mpr (Or.inl hx))

theorem preColon_snoc_cases {l : List Char} {c : Char} (h : PreColon (l ++ [c])) :
    c = ':' ∧ (TypeComp l ∨ AccountL l) := by
  obtain ⟨m, heq, hm⟩ := h
  obtain ⟨rfl, rfl⟩ := snoc_inj heq
  exact ⟨rfl, hm⟩

theorem accountL_snoc_cases {l : List Char} {c : Char} (h : AccountL (l ++ [c])) :
    (PreColon l ∧ nameStart c = true)
    ∨ (AccountL l ∧ compRest c = true ∧ ¬ c = ':') := by
  obtain ⟨t, comps, heq, hne, ht, hcomps⟩ := h
  rcases List.eq_nil_or_concat comps with rfl | ⟨comps0, w, hc2⟩
  · exact absurd rfl hne
  · rw [List.concat_eq_append] at hc2
    subst hc2
    obtain ⟨c1, cs1, rfl, h1, hcs1⟩ := hcomps w (by simp)
    rcases List.eq_nil_or_concat cs1 with rfl | ⟨cs0, cl, hc3⟩
    · have heq2 : l ++ [c] =
          (t ++ (comps0.map (fun v => ':' :: v)).flatten ++ [':']) ++ [c1] := by
        rw [heq]
        simp [List.append_assoc]
      obtain ⟨rfl, rfl⟩ := snoc_inj heq2
      refine Or.inl ⟨⟨t ++ (comps0.map (fun v => ':' :: v)).flatten, rfl, ?_⟩, h1⟩
      rcases List.eq_nil_or_concat comps0 with rfl | ⟨comps00, w0, hc4⟩
      · exact Or.inl (by simpa using ht)
      · rw [List.concat_eq_append] at hc4
        subst hc4
        refine Or.inr ⟨t, comps00 ++ [w0], rfl, by simp, ht, ?_⟩
        intro v hv
        exact hcomps v (List.mem_append.mpr (Or.inl hv))
    · rw [List.concat_eq_append] at hc3
      subst hc3
      have heq2 : l ++ [c] =
          (t ++ (comps0.map (fun v => ':' :: v)).flatten ++ ':' :: c1 :: cs0)
            ++ [cl] := by
        rw [heq]
        simp [List.append_assoc]
      obtain ⟨rfl, rfl⟩ := snoc_inj heq2
      have hcl : compRest c = true := hcs1 c (by simp)
      refine Or.inr ⟨?_, hcl, ?_⟩
      · refine ⟨t, comps0 ++ [c1 :: cs0], by simp [List.append_assoc], by simp,
          ht, ?_⟩
        intro v hv
        rcases List.mem_append.mp hv with h | h
        · exact hcomps v (List.mem_append.mpr (Or.inl h))
        · simp only [List.mem_singleton] at h
          subst h
          refine ⟨c1, cs0, rfl, h1, ?_⟩
          intro x hx
          exact hcs1 x (List.mem_append.mpr (Or.inl hx))
      · intro hcc
        rw [hcc] at hcl
        exact absurd hcl (by decide)

/-- The automaton state after reading `l` characterizes the shape of `l`:
`intype` means a type component, `expname` a (type or full account) followed
by a colon, and `inname` exactly the account-name grammar. -/
theorem runAcc_char (l : List Char) :
    (runAcc l = AccSt.start ↔ l = [])
    ∧ (runAcc l = AccSt.intype ↔ TypeComp l)
    ∧ (runAcc l = AccSt.expname ↔ PreColon l)
    ∧ (runAcc l = AccSt.inname ↔ AccountL l) := by
  induction l using List.reverseRecOn with
  | nil =>
      refine ⟨by simp [runAcc], ?_, ?_, ?_⟩
      · simp only [runAcc, List.foldl_nil]
        exact ⟨fun h => by simp at h, fun h => absurd h not_typeComp_nil⟩
      · simp only [runAcc, List.foldl_nil]
        exact ⟨fun h => by simp at h, fun h => absurd h not_preColon_nil⟩
      · simp only [runAcc, List.foldl_nil]
        exact ⟨fun h => by simp at h, fun h => absurd h not_accountL_nil⟩
  | append_singleton l c ih =>
      obtain ⟨ih1, ih2, ih3, ih4⟩ := ih
      rw [runAcc_snoc]
      refine ⟨?_, ?_, ?_, ?_⟩
      · exact ⟨fun h => absurd h (accStep_ne_start _ _), fun h => by simp at h⟩
      · constructor
        · intro h
          rcases (accStep_eq_intype_iff _ _).mp h with ⟨hs, hc⟩ | ⟨hs, _, hc⟩
          · have : l = [] := ih1.mp hs
            subst this
            simpa using typeComp_single hc
          · exact typeComp_snoc (ih2.mp hs) hc
        · intro h
          rcases typeComp_snoc_cases h with ⟨rfl, hc⟩ | ⟨hl, hc⟩
          · exact (accStep_eq_intype_iff _ _).mpr (Or.inl ⟨ih1.mpr rfl, hc⟩)
          · refine (accStep_eq_intype_iff _ _).mpr (Or.inr ⟨ih2.mpr hl, ?_, hc⟩)
            intro hcc
            rw [hcc] at hc
            exact absurd hc (by decide)
      · constructor
        · intro h
          obtain ⟨hs, rfl⟩ := (accStep_eq_expname_iff _ _).mp h
          rcases hs with hs | hs
          · exact ⟨l, rfl, Or.inl (ih2.mp hs)⟩
          · exact ⟨l, rfl, Or.inr (ih4.mp hs)⟩
        · intro h
          obtain ⟨rfl, hm⟩ := preColon_snoc_cases h
          rcases hm with hm | hm
          · exact (accStep_eq_expname_iff _ _).mpr ⟨Or.inl (ih2.mpr hm), rfl⟩
          · exact (accStep_eq_expname_iff _ _).mpr ⟨Or.inr (ih4.mpr hm), rfl⟩
      · constructor
        · intro h
          rcases (accStep_eq_inname_iff _ _).mp h with ⟨hs, hc⟩ | ⟨hs, _, hc⟩
          · exact accountL_newcomp (ih3.mp hs) hc
          · exact accountL_snoc (ih4.mp hs) hc
        · intro h
          rcases accountL_snoc_cases h with ⟨hl, hc⟩ | ⟨hl, hc, hcc⟩
          · exact (accStep_eq_inname_iff _ _).mpr (Or.inl ⟨ih3.mpr hl, hc⟩)
          · exact (accStep_eq_inname_iff _ _).mpr (Or.inr ⟨ih4.mpr hl, hcc, hc⟩)

/-- **C9, amended.**  The *anchored* `isValid` (`src/unnamed/part_001`)
returns true iff the entire string matches the account-name grammar — a type
component `[A-Z][a-zA-Z0-9\-]*` followed by one or more components
`[A-Z0-9][a-zA-Z0-9\-]*` joined by `':'` — so it accepts no string with
extra characters around a valid account name.  The `part_005` `isValid`
tests a different language altogether: its rebuilt `ACCOUNT_RE` loses the
`u` flag, degrading the `\p{...}` classes to literal character sets, and has
no anchors (see the counterexample). -/
theorem C9_anchored_isValid_iff (s : String) :
    isValid s = true ↔ accountGrammar s := by
  have h := (runAcc_char s.data).2.2.2
  simpa [isValid, fullMatch, accountGrammar] using h

def c9String : String := "Assets:Cash"

/-- **C9, counterexample.**  `"Assets:Cash"` matches the account-name
grammar as an entire string, yet the `part_005` `isValid` rejects it: with
the `u` flag lost, a match must start with one of the literal characters
p `{` L u `}`, and no character of the string qualifies.  Conversely
`"L:u"` does not match the grammar but is accepted (the whole string matches
the degenerate pattern).  Either input alone refutes the claim for the
`part_005` `isValid`. -/
theorem C9_counterexample :
    (accountGrammar c9String ∧ isValidP5 c9String = false)
      ∧ ¬ accountGrammar "L:u" ∧ isValidP5 "L:u" = true := by
  refine ⟨⟨?_, by decide⟩, ?_, by decide⟩
  · exact (runAcc_char c9String.data).2.2.2.mp (by decide)
  · intro h
    have h2 : runAcc "L:u".data = AccSt.inname :=
      (runAcc_char "L:u".data).2.2.2.mpr h
    have h3 : runAcc "L:u".data = AccSt.reject := by decide
    rw [h3] at h2
    exact absurd h2 (by decide)

end Account

/-! ## Theorems: price map (claims C2, C7) -/

namespace Prices

theorem pmapGet_cons (e : Pair × PriceList) (rest : PMap) (k : Pair) :
    pmapGet (e :: rest) k = if e.1 = k then some e.2 else pmapGet rest k := by
  by_cases h : e.1 = k <;> simp [pmapGet, List.find?_cons, h]

theorem pmapGet_eq_none_iff (m : PMap) (k : Pair) :
    pmapGet m k = none ↔ ∀ e ∈ m, ¬ e.1 = k := by
  simp [pmapGet, List.find?_eq_none]

theorem pmapGet_mem {m : PMap} {k : Pair} {l : PriceList}
    (h : pmapGet m k = some l) : (k, l) ∈ m := by
  induction m with
  | nil => simp [pmapGet] at h
  | cons e rest ih =>
      rw [pmapGet_cons] at h
      by_cases he : e.1 = k
      · rw [if_pos he] at h
        have hp : e.2 = l := by injection h
        have : e = (k, l) := by
          cases e
          simp only at he hp
          rw [he, hp]
        rw [← this]
        exact List.mem_cons_self e rest
      · rw [if_neg he] at h
        exact List.mem_cons_of_mem _ (ih h)

theorem pmapGet_of_nodup {m : PMap} {k : Pair} {l : PriceList}
    (hnd : (m.map (fun e => e.1)).Nodup) (hmem : (k, l) ∈ m) :
    pmapGet m k = some l := by
  induction m with
  | nil => simp at hmem
  | cons e rest ih =>
      rw [pmapGet_cons]
      rcases List.mem_cons.mp hmem with rfl | hmem2
      · simp
      · have he : ¬ e.1 = k := by
          intro hh
          have : k ∈ rest.map (fun e => e.1) :=
            List.mem_map.mpr ⟨(k, l), hmem2, rfl⟩
          rw [List.map_cons, List.nodup_cons] at hnd
          exact hnd.1 (hh ▸ this)
        rw [if_neg he]
        exact ih (by rw [List.map_cons, List.nodup_cons] at hnd; exact hnd.2) hmem2

theorem pmapGet_set (m : PMap) (kp : Pair) (v : PriceList) (k : Pair) :
    pmapGet (pmapSet m kp v) k = if kp = k then some v else pmapGet m k := by
  induction m with
  | nil => by_cases h : kp = k <;> simp [pmapSet, pmapGet_cons, h, pmapGet]
  | cons e rest ih =>
      by_cases he : e.1 = kp
      · by_cases hk : kp = k
        · simp [pmapSet, he, pmapGet_cons, hk]
        · have he2 : ¬ e.1 = k := by rw [he]; exact hk
          simp [pmapSet, he, pmapGet_cons, hk, he2]
      · by_cases hek : e.1 = k
        · have hk : ¬ kp = k := by
            intro hh
            exact he (by rw [hh, hek])
          have hk2 : ¬ k = kp := fun hh => hk hh.symm
          simp [pmapSet, he, pmapGet_cons, hek, hk, hk2]
        · simp [pmapSet, he, pmapGet_cons, hek, ih]

theorem pmapGet_del (m : PMap) (kd : Pair) (k : Pair) :
    pmapGet (pmapDel m kd) k = if k = kd then none else pmapGet m k := by
  induction m with
  | nil => by_cases h : k = kd <;> simp [pmapDel, pmapGet, h]
  | cons e rest ih =>
      by_cases he : e.1 = kd
      · have h1 : ¬ (¬ e.1 = kd) := by simp [he]
        by_cases hk : k = kd
        · simpa [pmapDel, List.filter_cons, he, hk] using ih
        · have he2 : ¬ e.1 = k := by rw [he]; intro hh; exact hk hh.symm
          simp only [pmapDel] at ih ⊢
          rw [List.filter_cons, if_neg (by simp [he])]
          rw [ih, if_neg hk, if_neg hk, pmapGet_cons, if_neg he2]
      · simp only [pmapDel] at ih ⊢
        rw [List.filter_cons, if_pos (by simp [he]), pmapGet_cons]
        by_cases hek : e.1 = k
        · have hk : ¬ k = kd := by
            intro hh
            exact he (by rw [hek, hh])
          rw [if_pos hek, if_neg hk, pmapGet_cons, if_pos hek]
        · rw [if_neg hek, ih, pmapGet_cons, if_neg hek]

theorem map_fst_set_present {m : PMap} {kp : Pair} {l : PriceList}
    (v : PriceList) (h : pmapGet m kp = some l) :
    (pmapSet m kp v).map (fun e => e.1) = m.map (fun e => e.1) := by
  induction m with
  | nil => simp [pmapGet] at h
  | cons e rest ih =>
      by_cases he : e.1 = kp
      · simp [pmapSet, he]
      · have hrest : pmapGet rest kp = some l := by
          rw [pmapGet_cons, if_neg he] at h
          exact h
        simp [pmapSet, he, ih hrest]

theorem set_absent {m : PMap} {kp : Pair} (v : PriceList)
    (h : pmapGet m kp = none) : pmapSet m kp v = m ++ [(kp, v)] := by
  induction m with
  | nil => simp [pmapSet]
  | cons e rest ih =>
      rw [pmapGet_eq_none_iff] at h
      have he : ¬ e.1 = kp := h e (by simp)
      have hrest : pmapGet rest kp = none := by
        rw [pmapGet_eq_none_iff]
        intro f hf
        exact h f (by simp [hf])
      simp [pmapSet, he, ih hrest]

theorem pmapGet_append (xs ys : PMap) (k : Pair) :
    pmapGet (xs ++ ys) k =
      (match pmapGet xs k with
       | some l => some l
       | none => pmapGet ys k) := by
  induction xs with
  | nil => simp [pmapGet]
  | cons e rest ih =>
      by_cases he : e.1 = k
      · simp [pmapGet_cons, he]
      · rw [List.cons_append, pmapGet_cons, if_neg he, pmapGet_cons, if_neg he, ih]

/-- Date-strictly-increasing price lists (what `buildPriceMap` stores). -/
def StrictByDate (l : PriceList) : Prop :=
  l.Pairwise (fun a b => a.1 < b.1)

theorem strict_unique_rate {l : PriceList} (h : StrictByDate l) {a : ℕ} {r1 r2 : ℚ}
    (h1 : (a, r1) ∈ l) (h2 : (a, r2) ∈ l) : r1 = r2 := by
  induction l with
  | nil => simp at h1
  | cons e rest ih =>
      rw [StrictByDate, List.pairwise_cons] at h
      rcases List.mem_cons.mp h1 with rfl | hm1
      · rcases List.mem_cons.mp h2 with he | hm2
        · injection he with h3 h4
          exact h4.symm
        · have := h.1 _ hm2
          simp at this
      · rcases List.mem_cons.mp h2 with rfl | hm2
        · have := h.1 _ hm1
          simp at this
        · exact ih h.2 hm1 hm2

theorem getLast?_is_max {l : PriceList} (h : StrictByDate l) {e : ℕ × ℚ}
    (he : l.getLast? = some e) : e ∈ l ∧ ∀ f ∈ l, f.1 ≤ e.1 := by
  induction l with
  | nil => simp at he
  | cons a rest ih =>
      rw [StrictByDate, List.pairwise_cons] at h
      cases rest with
      | nil =>
          simp only [List.getLast?_singleton, Option.some.injEq] at he
          subst he
          exact ⟨by simp, by simp⟩
      | cons b rest2 =>
          rw [List.getLast?_cons_cons] at he
          obtain ⟨hmem, hmax⟩ := ih h.2 he
          refine ⟨List.mem_cons_of_mem _ hmem, ?_⟩
          intro f hf
          rcases List.mem_cons.mp hf with rfl | hf2
          · exact Nat.le_of_lt (h.1 _ hmem)
          · exact hmax f hf2

theorem mem_invList {l : PriceList} {e : ℕ × ℚ} :
    e ∈ invList l ↔ ∃ r : ℚ, (e.1, r) ∈ l ∧ ¬ r = 0 ∧ e.2 = 1 / r := by
  constructor
  · intro h
    simp only [invList, List.mem_map, List.mem_filter] at h
    obtain ⟨f, ⟨hf, hr⟩, he⟩ := h
    refine ⟨f.2, ?_, by simpa using hr, ?_⟩
    · have : e.1 = f.1 := by rw [← he]
      rw [this]
      exact hf
    · rw [← he]
  · rintro ⟨r, hm, hr, he⟩
    simp only [invList, List.mem_map, List.mem_filter]
    exact ⟨(e.1, r), ⟨hm, by simpa using hr⟩, by
      cases e
      simp only at he
      simp [he]⟩

theorem invList_strict {l : PriceList} (h : StrictByDate l) :
    StrictByDate (invList l) := by
  unfold StrictByDate invList
  rw [List.pairwise_map]
  exact (h.filter _).imp (fun hab => hab)

theorem lookupGo_eq {prev : ℕ × ℚ} {l2 : PriceList} {d : ℕ}
    (h : StrictByDate (prev :: l2)) (hprev : prev.1 ≤ d) :
    priceListLookupGo prev l2 d =
      (if l2.any (fun f => d < f.1) then
        ((prev :: l2).filter (fun f => f.1 ≤ d)).getLast? else none) := by
  induction l2 generalizing prev with
  | nil => simp [priceListLookupGo]
  | cons b rest2 ih =>
      rw [StrictByDate, List.pairwise_cons] at h
      have hsb : StrictByDate (b :: rest2) := h.2
      rw [StrictByDate, List.pairwise_cons] at hsb
      by_cases hb : d < b.1
      · have hfilter2 : rest2.filter (fun f => f.1 ≤ d) = [] := by
          rw [List.filter_eq_nil_iff]
          intro f hf
          have := hsb.1 f hf
          simp only [decide_eq_true_eq]
          omega
        have hbe : ¬ b.1 ≤ d := by omega
        rw [priceListLookupGo, if_pos hb,
          if_pos (by simp [List.any_cons, hb])]
        rw [List.filter_cons, if_pos (by simpa using hprev), List.filter_cons,
          if_neg (by simpa using hbe), hfilter2]
        simp
      · have hbe : b.1 ≤ d := by omega
        rw [priceListLookupGo, if_neg hb, ih h.2 hbe]
        have hany : (b :: rest2).any (fun f => d < f.1)
            = rest2.any (fun f => d < f.1) := by
          simp [List.any_cons, hb]
        rw [hany]
        by_cases h2 : rest2.any (fun f => d < f.1)
        · rw [if_pos h2, if_pos h2]
          rw [List.filter_cons (x := prev), if_pos (by simpa using hprev)]
          rw [List.filter_cons (x := b), if_pos (by simpa using hbe)]
          exact List.getLast?_cons_cons.symm
        · rw [if_neg h2, if_neg h2]

/-- The `findIndex`-based lookup of `getPrice` equals, on a date-sorted list,
"the greatest entry whose date is ≤ the argument, provided some entry has a
strictly greater date". -/
theorem lookup_eq_specLE {l : PriceList} (h : StrictByDate l) (d : ℕ) :
    priceListLookup l d = specLookupLE l d := by
  cases l with
  | nil => simp [priceListLookup, specLookupLE]
  | cons e rest =>
      have h2 := h
      rw [StrictByDate, List.pairwise_cons] at h2
      by_cases hd : d < e.1
      · have hfilter : rest.filter (fun f => f.1 ≤ d) = [] := by
          rw [List.filter_eq_nil_iff]
          intro f hf
          have := h2.1 f hf
          simp only [decide_eq_true_eq]
          omega
        have hde : ¬ e.1 ≤ d := by omega
        simp [priceListLookup, specLookupLE, hd, hde, hfilter]
      · have hde : e.1 ≤ d := by omega
        rw [priceListLookup, if_neg hd, lookupGo_eq h hde]
        rw [specLookupLE]
        have hany : (e :: rest).any (fun f => d < f.1)
            = rest.any (fun f => d < f.1) := by
          simp [List.any_cons, hd]
        rw [hany]

/-- `specLookupLE` returns a member that is maximal among the entries dated
at or before the argument. -/
theorem specLE_is_max {l : PriceList} (h : StrictByDate l) {d : ℕ} {e : ℕ × ℚ}
    (he : specLookupLE l d = some e) :
    e ∈ l ∧ e.1 ≤ d ∧ ∀ f ∈ l, f.1 ≤ d → f.1 ≤ e.1 := by
  rw [specLookupLE] at he
  by_cases hany : l.any (fun f => d < f.1)
  · rw [if_pos hany] at he
    have hstrict : StrictByDate (l.filter (fun f => f.1 ≤ d)) := h.filter _
    obtain ⟨hmem, hmax⟩ := getLast?_is_max hstrict he
    have hin := List.mem_of_mem_filter hmem
    have hed : e.1 ≤ d := by
      have := List.of_mem_filter hmem
      simpa using this
    refine ⟨hin, hed, ?_⟩
    intro f hf hfd
    exact hmax f (List.mem_filter.mpr ⟨hf, by simpa using hfd⟩)
  · rw [if_neg hany] at he
    exact absurd he (by simp)

/-- Core reciprocal fact for a dated lookup: on a strictly date-sorted list
and its materialized inverse, lookups at the same date that both succeed with
a non-zero forward rate return the same date and reciprocal rates. -/
theorem recip_lookup {L : PriceList} (hL : StrictByDate L) {d : ℕ}
    {df di : ℕ} {rf ri : ℚ}
    (hf : priceListLookup L d = some (df, rf))
    (hi : priceListLookup (invList L) d = some (di, ri))
    (hrf : ¬ rf = 0) : di = df ∧ ri = 1 / rf := by
  rw [lookup_eq_specLE hL] at hf
  rw [lookup_eq_specLE (invList_strict hL)] at hi
  obtain ⟨hfm, hfd, hfmax⟩ := specLE_is_max hL hf
  obtain ⟨him, hid, himax⟩ := specLE_is_max (invList_strict hL) hi
  obtain ⟨r0, hr0m, hr0z, hr0e⟩ := mem_invList.mp him
  have h1 : di ≤ df := hfmax (di, r0) hr0m hid
  have h2 : (df, 1 / rf) ∈ invList L := mem_invList.mpr ⟨rf, hfm, hrf, rfl⟩
  have h3 : df ≤ di := himax (df, 1 / rf) h2 hfd
  have hdd : di = df := Nat.le_antisymm h1 h3
  subst hdd
  have hr : r0 = rf := strict_unique_rate hL hr0m hfm
  simp only at hr0e
  exact ⟨rfl, by rw [hr0e, hr]⟩

/-- The same reciprocal fact for the latest-entry lookup. -/
theorem recip_last {L : PriceList} (hL : StrictByDate L)
    {df di : ℕ} {rf ri : ℚ}
    (hf : L.getLast? = some (df, rf))
    (hi : (invList L).getLast? = some (di, ri))
    (hrf : ¬ rf = 0) : di = df ∧ ri = 1 / rf := by
  obtain ⟨hfm, hfmax⟩ := getLast?_is_max hL hf
  obtain ⟨him, himax⟩ := getLast?_is_max (invList_strict hL) hi
  obtain ⟨r0, hr0m, hr0z, hr0e⟩ := mem_invList.mp him
  have h1 : di ≤ df := hfmax (di, r0) hr0m
  have h2 : (df, 1 / rf) ∈ invList L := mem_invList.mpr ⟨rf, hfm, hrf, rfl⟩
  have h3 : df ≤ di := himax (df, 1 / rf) h2
  have hdd : di = df := Nat.le_antisymm h1 h3
  subst hdd
  have hr : r0 = rf := strict_unique_rate hL hr0m hfm
  simp only at hr0e
  exact ⟨rfl, by rw [hr0e, hr]⟩

theorem isSome_pmapGet_iff (m : PMap) (k : Pair) :
    (pmapGet m k).isSome = true ↔ k ∈ m.map (fun e => e.1) := by
  induction m with
  | nil => simp [pmapGet]
  | cons e rest ih =>
      rw [pmapGet_cons]
      by_cases he : e.1 = k
      · simp [he]
      · have he2 : ¬ k = e.1 := fun hh => he hh.symm
        simp [he, he2, ih]

theorem nodup_pushEntry {m : PMap} (p : Pair) (e : ℕ × ℚ)
    (hnd : (m.map (fun x => x.1)).Nodup) :
    ((pushEntry m p e).map (fun x => x.1)).Nodup := by
  unfold pushEntry
  cases hg : pmapGet m p with
  | some l => rw [map_fst_set_present _ hg]; exact hnd
  | none =>
      rw [List.map_append, List.nodup_append]
      refine ⟨hnd, by simp, ?_⟩
      intro a ha hb
      simp only [List.map_cons, List.map_nil, List.mem_singleton] at hb
      subst hb
      rw [pmapGet_eq_none_iff] at hg
      obtain ⟨f, hf, hk⟩ := List.mem_map.mp ha
      exact hg f hf hk

theorem delete_props (m : PMap) (rm : Pair)
    (hnd : (m.map (fun x => x.1)).Nodup) :
    (((pmapDel m rm).map (fun x => x.1)).Nodup)
    ∧ ∀ k, ((pmapGet (pmapDel m rm) k).isSome = true ↔
        (pmapGet m k).isSome = true ∧ ¬ k = rm) := by
  constructor
  · exact ((List.filter_sublist m).map _).nodup hnd
  · intro k
    rw [pmapGet_del]
    by_cases hk : k = rm
    · simp [hk]
    · simp [hk]

theorem set_del_props (m : PMap) (rm : Pair) (v : PriceList)
    (hnd : (m.map (fun x => x.1)).Nodup) (hswap : ¬ rm.swap = rm)
    (hins : (pmapGet m rm.swap).isSome = true) :
    (((pmapSet (pmapDel m rm) rm.swap v).map (fun x => x.1)).Nodup)
    ∧ ∀ k, ((pmapGet (pmapSet (pmapDel m rm) rm.swap v) k).isSome = true ↔
        (pmapGet m k).isSome = true ∧ ¬ k = rm) := by
  have hdel : pmapGet (pmapDel m rm) rm.swap = pmapGet m rm.swap := by
    rw [pmapGet_del, if_neg hswap]
  obtain ⟨ins, hins2⟩ := Option.isSome_iff_exists.mp hins
  have hdelnd : ((pmapDel m rm).map (fun x => x.1)).Nodup :=
    ((List.filter_sublist m).map _).nodup hnd
  constructor
  · rw [map_fst_set_present v (by rw [hdel]; exact hins2)]
    exact hdelnd
  · intro k
    rw [pmapGet_set]
    by_cases hks : rm.swap = k
    · subst hks
      rw [if_pos rfl]
      simp only [Option.isSome_some, true_iff]
      exact ⟨hins, hswap⟩
    · rw [if_neg hks, pmapGet_del]
      by_cases hk : k = rm
      · simp [hk]
      · simp [hk]

theorem removalStep_props {m : PMap} {bq : Pair} {m2 : PMap}
    (h : removalStep m bq = some m2) (hnd : (m.map (fun x => x.1)).Nodup) :
    ((m2.map (fun x => x.1)).Nodup)
    ∧ ∃ rm, (rm = bq ∨ rm = bq.swap) ∧
      ∀ k, ((pmapGet m2 k).isSome = true ↔
        (pmapGet m k).isSome = true ∧ ¬ k = rm) := by
  cases hbq : pmapGet m bq with
  | none => simp [removalStep, hbq] at h
  | some bqP =>
      cases hqb : pmapGet m bq.swap with
      | none => simp [removalStep, hbq, hqb] at h
      | some qbP =>
          simp only [removalStep, hbq, hqb] at h
          by_cases hlen : bqP.length < qbP.length
          · simp only [hlen, if_true, hbq, hqb] at h
            by_cases hself : bq.swap = bq
            · rw [if_pos hself] at h
              have hm2 := Option.some.inj h
              subst hm2
              exact ⟨(delete_props m bq hnd).1, bq, Or.inl rfl,
                (delete_props m bq hnd).2⟩
            · rw [if_neg hself] at h
              have hm2 := Option.some.inj h
              subst hm2
              have hins : (pmapGet m bq.swap).isSome = true := by
                rw [hqb]; rfl
              exact ⟨(set_del_props m bq _ hnd hself hins).1, bq, Or.inl rfl,
                (set_del_props m bq _ hnd hself hins).2⟩
          · simp only [hlen, if_false, Prod.swap_swap, hbq, hqb] at h
            by_cases hself : bq = bq.swap
            · rw [if_pos hself] at h
              have hm2 := Option.some.inj h
              subst hm2
              exact ⟨(delete_props m bq.swap hnd).1, bq.swap, Or.inr rfl,
                (delete_props m bq.swap hnd).2⟩
            · rw [if_neg hself] at h
              have hm2 := Option.some.inj h
              subst hm2
              have hswap2 : ¬ (bq.swap).swap = bq.swap := by
                rw [Prod.swap_swap]; exact hself
              have hins2 : (pmapGet m (bq.swap).swap).isSome = true := by
                rw [Prod.swap_swap, hbq]; rfl
              have hprops := set_del_props m bq.swap
                (bqP ++ (qbP.filter (fun e => ¬ e.2 = 0)).map (fun e => (e.1, 1 / e.2)))
                hnd hswap2 hins2
              rw [Prod.swap_swap] at hprops
              exact ⟨hprops.1, bq.swap, Or.inr rfl, hprops.2⟩

theorem foldlM_removal_nodup :
    ∀ (rest : List Pair) (m m2 : PMap),
      (m.map (fun x => x.1)).Nodup →
      List.foldlM removalStep m rest = some m2 →
      (m2.map (fun x => x.1)).Nodup := by
  intro rest
  induction rest with
  | nil =>
      intro m m2 hnd h
      have hm : m = m2 := Option.some.inj h
      rw [← hm]
      exact hnd
  | cons p rest2 ih =>
      intro m m2 hnd h
      rw [List.foldlM_cons] at h
      cases hstep : removalStep m p with
      | none => rw [hstep] at h; simp at h
      | some mm =>
          rw [hstep] at h
          exact ih mm m2 (removalStep_props hstep hnd).1 h

theorem foldlM_no_mutual :
    ∀ (rest : List Pair) (m m2 : PMap),
      (m.map (fun x => x.1)).Nodup →
      (∀ k : Pair, (pmapGet m k).isSome = true → (pmapGet m k.swap).isSome = true →
        k ∈ rest ∧ k.swap ∈ rest) →
      List.foldlM removalStep m rest = some m2 →
      ∀ k : Pair, (pmapGet m2 k).isSome = true →
        ¬ (pmapGet m2 k.swap).isSome = true := by
  intro rest
  induction rest with
  | nil =>
      intro m m2 hnd hinv h k h1 h2
      have hm : m = m2 := Option.some.inj h
      rw [← hm] at h1 h2
      exact List.not_mem_nil k ((hinv k h1 h2).1)
  | cons p rest2 ih =>
      intro m m2 hnd hinv h
      rw [List.foldlM_cons] at h
      cases hstep : removalStep m p with
      | none => rw [hstep] at h; simp at h
      | some mm =>
          rw [hstep] at h
          obtain ⟨hndmm, rm, hrm, hkeys⟩ := removalStep_props hstep hnd
          refine ih mm m2 hndmm ?_ h
          intro k hk1 hk2
          obtain ⟨hk1m, hk1rm⟩ := (hkeys k).mp hk1
          obtain ⟨hk2m, hk2rm⟩ := (hkeys k.swap).mp hk2
          obtain ⟨hkp, hksp⟩ := hinv k hk1m hk2m
          constructor
          · rcases List.mem_cons.mp hkp with rfl | hmem
            · exfalso
              rcases hrm with rfl | rfl
              · exact hk1rm rfl
              · exact hk2rm rfl
            · exact hmem
          · rcases List.mem_cons.mp hksp with heq | hmem
            · exfalso
              rcases hrm with rfl | rfl
              · exact hk2rm heq
              · exact hk1rm (by rw [← heq, Prod.swap_swap])
            · exact hmem

theorem nodup_accumulate (dirs : List PriceDir) :
    ((accumulate dirs).map (fun x => x.1)).Nodup := by
  unfold accumulate
  have main : ∀ (ds : List PriceDir) (m : PMap), (m.map (fun x => x.1)).Nodup →
      ((ds.foldl (fun m2 pr =>
        pushEntry m2 (pr.currency, pr.amountCurrency) (pr.date, pr.amountNumber)) m).map
          (fun x => x.1)).Nodup := by
    intro ds
    induction ds with
    | nil => intro m h; exact h
    | cons d rest ih => intro m h; exact ih _ (nodup_pushEntry _ _ h)
  exact main dirs [] (by simp)

theorem pmapGet_mapval (f : PriceList → PriceList) (m : PMap) (k : Pair) :
    pmapGet (m.map (fun kv => (kv.1, f kv.2))) k = (pmapGet m k).map f := by
  induction m with
  | nil => simp [pmapGet]
  | cons e rest ih =>
      by_cases he : e.1 = k
      · simp [pmapGet_cons, he]
      · simp [pmapGet_cons, he, ih]

theorem map_fst_mapval (f : PriceList → PriceList) (m : PMap) :
    (m.map (fun kv => (kv.1, f kv.2))).map (fun x => x.1) = m.map (fun x => x.1) := by
  induction m with
  | nil => rfl
  | cons e rest ih => simp [ih]

theorem pmapGet_swapInv (m : PMap) (k : Pair) :
    pmapGet (m.map (fun kv => (kv.1.swap, invList kv.2))) k
      = (pmapGet m k.swap).map invList := by
  induction m with
  | nil => simp [pmapGet]
  | cons e rest ih =>
      by_cases he : e.1.swap = k
      · have he2 : e.1 = k.swap := by rw [← he, Prod.swap_swap]
        simp [pmapGet_cons, he, he2]
      · have he2 : ¬ e.1 = k.swap := by
          intro hh
          exact he (by rw [hh, Prod.swap_swap])
        simp [pmapGet_cons, he, he2, ih]

instance : IsTotal (ℕ × ℚ) (fun a b => a.1 ≤ b.1) :=
  ⟨fun a b => Nat.le_total a.1 b.1⟩

instance : IsTrans (ℕ × ℚ) (fun a b => a.1 ≤ b.1) :=
  ⟨fun _ _ _ h1 h2 => Nat.le_trans h1 h2⟩

theorem dedupFirstAux_mem :
    ∀ (l : PriceList) (seen : List ℕ) (a : ℕ × ℚ),
      a ∈ dedupFirstAux seen l → a ∈ l ∧ ¬ a.1 ∈ seen := by
  intro l
  induction l with
  | nil => intro seen a ha; simp [dedupFirstAux] at ha
  | cons e rest ih =>
      intro seen a ha
      rw [dedupFirstAux] at ha
      by_cases hseen : e.1 ∈ seen
      · rw [if_pos hseen] at ha
        obtain ⟨hm, hs⟩ := ih seen a ha
        exact ⟨List.mem_cons_of_mem _ hm, hs⟩
      · rw [if_neg hseen] at ha
        rcases List.mem_cons.mp ha with rfl | ha2
        · exact ⟨List.mem_cons_self _ _, hseen⟩
        · obtain ⟨hm, hs⟩ := ih (e.1 :: seen) a ha2
          refine ⟨List.mem_cons_of_mem _ hm, ?_⟩
          intro hin
          exact hs (List.mem_cons_of_mem _ hin)

theorem dedupFirst_subset {l : PriceList} {a : ℕ × ℚ}
    (ha : a ∈ dedupFirst l) : a ∈ l :=
  (dedupFirstAux_mem l [] a ha).1

theorem dedupFirstAux_strict :
    ∀ (l : PriceList) (seen : List ℕ),
      l.Pairwise (fun a b => a.1 ≤ b.1) →
      (dedupFirstAux seen l).Pairwise (fun a b => a.1 < b.1) := by
  intro l
  induction l with
  | nil => intro seen _; simp [dedupFirstAux]
  | cons e rest ih =>
      intro seen hp
      rw [List.pairwise_cons] at hp
      rw [dedupFirstAux]
      by_cases hseen : e.1 ∈ seen
      · rw [if_pos hseen]
        exact ih seen hp.2
      · rw [if_neg hseen]
        rw [List.pairwise_cons]
        constructor
        · intro b hb
          obtain ⟨hbm, hbs⟩ := dedupFirstAux_mem rest (e.1 :: seen) b hb
          have hble := hp.1 b hbm
          have hbne : ¬ b.1 = e.1 := by
            intro hh
            exact hbs (by rw [hh]; exact List.mem_cons_self _ _)
          omega
        · exact ih (e.1 :: seen) hp.2

theorem sortDedup_strict (l : PriceList) : StrictByDate (sortDedup l) := by
  apply dedupFirstAux_strict (sortByDate l) []
  have h := List.sorted_insertionSort (fun a b : ℕ × ℚ => a.1 ≤ b.1) l
  exact h

theorem build_m4_aux (m3 : PMap) (hnd : (m3.map (fun x => x.1)).Nodup)
    (hnm : ∀ k : Pair, (pmapGet m3 k).isSome = true →
      ¬ (pmapGet m3 k.swap).isSome = true) :
    ∀ (m3b m3a : PMap), m3 = m3a ++ m3b →
      (m3b.map (fun e => e.1)).foldl
        (fun m p => pmapSet m p.swap (invList ((pmapGet m p).getD [])))
        (m3 ++ m3a.map (fun kv => (kv.1.swap, invList kv.2)))
      = m3 ++ m3.map (fun kv => (kv.1.swap, invList kv.2)) := by
  intro m3b
  induction m3b with
  | nil =>
      intro m3a heq
      rw [List.append_nil] at heq
      rw [List.map_nil, List.foldl_nil, ← heq]
  | cons eL m3b2 ih =>
      intro m3a heq
      obtain ⟨p, L⟩ := eL
      rw [List.map_cons, List.foldl_cons]
      have hmem : (p, L) ∈ m3 := by
        rw [heq]
        exact List.mem_append.mpr (Or.inr (List.mem_cons_self _ _))
      have hget3 : pmapGet m3 p = some L := pmapGet_of_nodup hnd hmem
      have hpnotin_a : ¬ p ∈ m3a.map (fun x => x.1) := by
        intro hin
        have hnd2 := hnd
        rw [heq, List.map_append, List.nodup_append] at hnd2
        exact hnd2.2.2 hin (by simp)
      have hcur : pmapGet (m3 ++ m3a.map (fun kv => (kv.1.swap, invList kv.2))) p
          = some L := by
        rw [pmapGet_append, hget3]
      have h3swap : pmapGet m3 p.swap = none := by
        have := hnm p (by rw [hget3]; rfl)
        cases hx : pmapGet m3 p.swap with
        | none => rfl
        | some v => rw [hx] at this; exact absurd rfl this
      have habs : pmapGet (m3 ++ m3a.map (fun kv => (kv.1.swap, invList kv.2)))
          p.swap = none := by
        rw [pmapGet_append, h3swap, pmapGet_swapInv, Prod.swap_swap]
        have hnone : pmapGet m3a p = none := by
          rw [pmapGet_eq_none_iff]
          intro e he hk
          exact hpnotin_a (List.mem_map.mpr ⟨e, he, hk⟩)
        rw [hnone]
        rfl
      rw [hcur]
      simp only [Option.getD_some]
      rw [set_absent _ habs]
      have hres : m3 ++ m3a.map (fun kv => (kv.1.swap, invList kv.2))
            ++ [(p.swap, invList L)]
          = m3 ++ (m3a ++ [(p, L)]).map (fun kv => (kv.1.swap, invList kv.2)) := by
        simp [List.append_assoc]
      rw [hres]
      exact ih (m3a ++ [(p, L)]) (by rw [heq, List.append_assoc]; rfl)

theorem build_m4 (m3 : PMap) (hnd : (m3.map (fun x => x.1)).Nodup)
    (hnm : ∀ k : Pair, (pmapGet m3 k).isSome = true →
      ¬ (pmapGet m3 k.swap).isSome = true) :
    addInverses m3 = m3 ++ m3.map (fun kv => (kv.1.swap, invList kv.2)) := by
  have h := build_m4_aux m3 hnd hnm m3 [] (by simp)
  simpa [addInverses] using h

/-- Structure of a built price map: for every ordered pair, either both
orientations are absent, or one holds a strictly date-sorted list `L` and the
other its pointwise reciprocal `invList L`. -/
theorem build_pairs {dirs : List PriceDir} {pm : PriceMapS}
    (hb : buildPriceMap dirs = some pm) (bq : Pair) :
    (lookupPriceAndInverse pm.entries bq = none
      ∧ lookupPriceAndInverse pm.entries bq.swap = none)
    ∨ ∃ L, StrictByDate L ∧
        ((lookupPriceAndInverse pm.entries bq = some L
            ∧ lookupPriceAndInverse pm.entries bq.swap = some (invList L))
         ∨ (lookupPriceAndInverse pm.entries bq = some (invList L)
            ∧ lookupPriceAndInverse pm.entries bq.swap = some L)) := by
  simp only [buildPriceMap] at hb
  cases hfold : List.foldlM removalStep (accumulate dirs)
      (inversedUnitsOf (accumulate dirs)) with
  | none => rw [hfold] at hb; exact absurd hb (by simp)
  | some m2 =>
      rw [hfold] at hb
      simp only [Option.some.injEq] at hb
      have hnd1 := nodup_accumulate dirs
      have hinv0 : ∀ k : Pair, (pmapGet (accumulate dirs) k).isSome = true →
          (pmapGet (accumulate dirs) k.swap).isSome = true →
          k ∈ inversedUnitsOf (accumulate dirs)
          ∧ k.swap ∈ inversedUnitsOf (accumulate dirs) := by
        intro k h1 h2
        constructor
        · exact List.mem_filter.mpr ⟨(isSome_pmapGet_iff _ _).mp h1, h2⟩
        · refine List.mem_filter.mpr ⟨(isSome_pmapGet_iff _ _).mp h2, ?_⟩
          rw [Prod.swap_swap]
          exact h1
      have hnd2 := foldlM_removal_nodup _ _ _ hnd1 hfold
      have hnm2 := foldlM_no_mutual _ _ _ hnd1 hinv0 hfold
      have hget3 : ∀ k, pmapGet (sortedMap m2) k = (pmapGet m2 k).map sortDedup :=
        fun k => pmapGet_mapval _ _ _
      have hnd3 : ((sortedMap m2).map (fun x => x.1)).Nodup := by
        rw [sortedMap, map_fst_mapval]
        exact hnd2
      have hiso : ∀ (o : Option PriceList), (o.map sortDedup).isSome = o.isSome := by
        intro o
        cases o <;> rfl
      have hnm3 : ∀ k : Pair, (pmapGet (sortedMap m2) k).isSome = true →
          ¬ (pmapGet (sortedMap m2) k.swap).isSome = true := by
        intro k h1 h2
        rw [hget3, hiso] at h1 h2
        exact hnm2 k h1 h2
      have hstrict : ∀ {k : Pair} {L : PriceList},
          pmapGet (sortedMap m2) k = some L → StrictByDate L := by
        intro k L h
        rw [hget3] at h
        cases hx : pmapGet m2 k with
        | none => rw [hx] at h; simp at h
        | some L0 =>
            rw [hx] at h
            simp only [Option.map_some', Option.some.injEq] at h
            rw [← h]
            exact sortDedup_strict L0
      have hent : pm.entries = sortedMap m2 ++
          (sortedMap m2).map (fun kv => (kv.1.swap, invList kv.2)) := by
        rw [← hb]
        exact build_m4 (sortedMap m2) hnd3 hnm3
      have hget4 : ∀ k, pmapGet pm.entries k
          = (match pmapGet (sortedMap m2) k with
             | some l => some l
             | none => (pmapGet (sortedMap m2) k.swap).map invList) := by
        intro k
        rw [hent, pmapGet_append, pmapGet_swapInv]
      rcases h1 : pmapGet (sortedMap m2) bq with _ | L1 <;>
        rcases h2 : pmapGet (sortedMap m2) bq.swap with _ | L2
      · left
        have e1 : pmapGet pm.entries bq = none := by
          rw [hget4 bq]
          simp only [h1, h2]
          rfl
        have e2 : pmapGet pm.entries bq.swap = none := by
          rw [hget4 bq.swap]
          simp only [h2, Prod.swap_swap, h1]
          rfl
        constructor
        · simp [lookupPriceAndInverse, e1, e2]
        · simp [lookupPriceAndInverse, e2, Prod.swap_swap, e1]
      · right
        refine ⟨L2, hstrict h2, Or.inr ⟨?_, ?_⟩⟩
        · have e1 : pmapGet pm.entries bq = some (invList L2) := by
            rw [hget4 bq]
            simp only [h1, h2]
            rfl
          simp [lookupPriceAndInverse, e1]
        · have e2 : pmapGet pm.entries bq.swap = some L2 := by
            rw [hget4 bq.swap]
            simp only [h2]
          simp [lookupPriceAndInverse, e2]
      · right
        refine ⟨L1, hstrict h1, Or.inl ⟨?_, ?_⟩⟩
        · have e1 : pmapGet pm.entries bq = some L1 := by
            rw [hget4 bq]
            simp only [h1]
          simp [lookupPriceAndInverse, e1]
        · have e2 : pmapGet pm.entries bq.swap = some (invList L1) := by
            rw [hget4 bq.swap]
            simp only [h2, Prod.swap_swap, h1]
            rfl
          simp [lookupPriceAndInverse, e2]
      · exfalso
        refine hnm3 bq ?_ ?_
        · rw [h1]; rfl
        · rw [h2]; rfl

/-- The lookup result of `getPrice` for a date argument that may be null. -/
def resOf (l : PriceList) : Option ℕ → Option (ℕ × ℚ)
  | some d => priceListLookup l d
  | none => l.getLast?

theorem getPrice_eq_toRes (pm : PriceMapS) (bq : Pair)
    (hguard : ¬ (bq.2 = "" ∨ bq.1 = bq.2)) {L : PriceList}
    (hL : lookupPriceAndInverse pm.entries bq = some L) (dOpt : Option ℕ) :
    getPrice pm bq dOpt = toRes (resOf L dOpt) := by
  cases dOpt with
  | none =>
      simp only [getPrice, getLatestPrice, resOf]
      rw [if_neg hguard, hL]
  | some d =>
      simp only [getPrice, resOf]
      rw [if_neg hguard, hL]

theorem getPrice_eq_none (pm : PriceMapS) (bq : Pair)
    (hguard : ¬ (bq.2 = "" ∨ bq.1 = bq.2))
    (hL : lookupPriceAndInverse pm.entries bq = none) (dOpt : Option ℕ) :
    getPrice pm bq dOpt = (none, none) := by
  cases dOpt with
  | none =>
      simp only [getPrice, getLatestPrice]
      rw [if_neg hguard, hL]
  | some d =>
      simp only [getPrice]
      rw [if_neg hguard, hL]

theorem toRes_eq_some {o : Option (ℕ × ℚ)} {df : Option ℕ} {rf : ℚ}
    (h : toRes o = (df, some rf)) : ∃ d0, o = some (d0, rf) ∧ df = some d0 := by
  cases o with
  | none =>
      rw [toRes] at h
      injection h with h1 h2
      exact absurd h2 (by simp)
  | some e =>
      rw [toRes] at h
      injection h with h1 h2
      have h3 : e.2 = rf := by injection h2
      exact ⟨e.1, by rw [← h3], h1.symm⟩

theorem recip_resOf {L : PriceList} (hsL : StrictByDate L) (dOpt : Option ℕ)
    {d0 d1 : ℕ} {rf ri : ℚ}
    (hf : resOf L dOpt = some (d0, rf))
    (hi : resOf (invList L) dOpt = some (d1, ri))
    (hrf : ¬ rf = 0) : d1 = d0 ∧ ri = 1 / rf := by
  cases dOpt with
  | some d => exact recip_lookup hsL hf hi hrf
  | none => exact recip_last hsL hf hi hrf

/-- The concrete input refuting C7 as stated: prices `(A,B)` of 2 at date 1
and 0 at date 3.  The inverse list drops the zero entry, so at date 2 the
forward lookup is defined with non-zero rate 2 while the inverse lookup
returns `[null, null]`. -/
def c7Dirs : List PriceDir :=
  [⟨1, "A", 2, "B"⟩, ⟨3, "A", 0, "B"⟩]

/-- The claim C7, instantiated at one pair and date: a defined non-zero
forward rate has a defined reciprocal inverse rate. -/
def C7ClaimAt (pm : PriceMapS) (a b : String) (d : ℕ) : Prop :=
  ∀ r : ℚ, (getPrice pm (a, b) (some d)).2 = some r → ¬ r = 0 →
    ∃ s : ℚ, (getPrice pm (b, a) (some d)).2 = some s ∧ r = 1 / s

/-- **C7, counterexample.**  On `c7Dirs`, the forward lookup at date 2 is
defined with the non-zero rate 2, but the inverse lookup returns
`[null, null]` (the zero-rate entry at date 3 was skipped when the inverse
list was materialized, so no strictly-later inverse entry exists), refuting
"whenever either side is defined and the rate is non-zero, the rates are
reciprocal". -/
theorem C7_counterexample :
    ∃ pm, buildPriceMap c7Dirs = some pm
      ∧ getPrice pm ("A", "B") (some 2) = (some 1, some 2)
      ∧ getPrice pm ("B", "A") (some 2) = (none, none)
      ∧ ¬ C7ClaimAt pm "A" "B" 2 := by
  refine ⟨(buildPriceMap c7Dirs).getD ⟨[], []⟩, by with_unfolding_all decide, by with_unfolding_all decide, by with_unfolding_all decide, ?_⟩
  intro h
  obtain ⟨s, hs, -⟩ := h 2 (by with_unfolding_all decide) (by with_unfolding_all decide)
  have hnone : (getPrice ((buildPriceMap c7Dirs).getD ⟨[], []⟩)
      ("B", "A") (some 2)).2 = none := by with_unfolding_all decide
  rw [hnone] at hs
  exact Option.noConfusion hs

/-- **C7, amended.**  For every price map built by `buildPriceMap` and every
pair `(A, B)` of non-empty currencies and date argument (null or not):
whenever *both* lookups return a rate and *both* stored rates are non-zero,
the rate for `(A, B)` is the reciprocal of the rate for `(B, A)` (exactly, in
the `ℚ` model of `Decimal`), and the returned dates coincide — because every
canonical forward pair's list is materialized in the inverse direction by
pointwise reciprocal of its non-zero entries. -/
theorem C7_reciprocal_amended (dirs : List PriceDir) (pm : PriceMapS)
    (a b : String) (dOpt : Option ℕ) (df di : Option ℕ) (rf ri : ℚ)
    (hb : buildPriceMap dirs = some pm) (ha : ¬ a = "") (hbne : ¬ b = "")
    (hf : getPrice pm (a, b) dOpt = (df, some rf))
    (hi : getPrice pm (b, a) dOpt = (di, some ri))
    (hrf : ¬ rf = 0) (hri : ¬ ri = 0) :
    ri = 1 / rf ∧ di = df := by
  by_cases hab : a = b
  · subst hab
    have h1 : getPrice pm (a, a) dOpt = ((none : Option ℕ), some (1 : ℚ)) := by
      cases dOpt <;> simp [getPrice, getLatestPrice]
    rw [h1] at hf hi
    injection hf with hf1 hf2
    injection hi with hi1 hi2
    have hrf1 : rf = 1 := by injection hf2 with h; exact h.symm
    have hri1 : ri = 1 := by injection hi2 with h; exact h.symm
    constructor
    · rw [hrf1, hri1]; norm_num
    · rw [← hf1, ← hi1]
  · have hg1 : ¬ (((a, b) : Pair).2 = "" ∨ ((a, b) : Pair).1 = ((a, b) : Pair).2) := by
      simp [hbne, hab]
    have hg2 : ¬ (((b, a) : Pair).2 = "" ∨ ((b, a) : Pair).1 = ((b, a) : Pair).2) := by
      simp [ha]
      intro hh
      exact hab hh.symm
    rcases build_pairs hb (a, b) with ⟨hn1, hn2⟩ | ⟨L, hsL, ⟨hf2, hi2⟩ | ⟨hf2, hi2⟩⟩
    · exfalso
      have := getPrice_eq_none pm (a, b) hg1 hn1 dOpt
      rw [this] at hf
      injection hf with hf1 hf2
      exact Option.noConfusion hf2
    · have hi2b : lookupPriceAndInverse pm.entries (b, a) = some (invList L) := hi2
      have hfr := getPrice_eq_toRes pm (a, b) hg1 hf2 dOpt
      have hir := getPrice_eq_toRes pm (b, a) hg2 hi2b dOpt
      rw [hfr] at hf
      rw [hir] at hi
      obtain ⟨e0, hx, hdf⟩ := toRes_eq_some hf
      obtain ⟨e1, hy, hdi⟩ := toRes_eq_some hi
      obtain ⟨heq1, heq2⟩ := recip_resOf hsL dOpt hx hy hrf
      exact ⟨heq2, by rw [hdi, hdf, heq1]⟩
    · have hi2b : lookupPriceAndInverse pm.entries (b, a) = some L := hi2
      have hfr := getPrice_eq_toRes pm (a, b) hg1 hf2 dOpt
      have hir := getPrice_eq_toRes pm (b, a) hg2 hi2b dOpt
      rw [hfr] at hf
      rw [hir] at hi
      obtain ⟨e0, hx, hdf⟩ := toRes_eq_some hf
      obtain ⟨e1, hy, hdi⟩ := toRes_eq_some hi
      obtain ⟨heq1, heq2⟩ := recip_resOf hsL dOpt hy hx hri
      have hrr : ri = 1 / rf := by
        rw [heq2, one_div_one_div]
      exact ⟨hrr, by rw [hdi, hdf, heq1]⟩

/-- The concrete input refuting C2 as stated: a single price `(USD, CAD)` of
2 at date 3.  At lookup date 4 the greatest entry with date strictly less
than 4 is `(3, 2)`, but the code returns `[null, null]` because no entry has
date strictly greater than 4. -/
def c2Dirs : List PriceDir := [⟨3, "USD", 2, "CAD"⟩]

/-- **C2, counterexample.**  On `c2Dirs` at date 4, the claim's
"greatest entry with date strictly less than the argument" is `(3, 2)`, yet
`getPrice` returns `(none, none)`: the `findIndex`/`index - 1` scan needs an
entry dated strictly *after* the argument to land on its predecessor, so at
or past the latest sample it returns `[null, null]`. -/
theorem C2_counterexample :
    ∃ pm, buildPriceMap c2Dirs = some pm
      ∧ specLookupLT ((lookupPriceAndInverse pm.entries
          ("USD", "CAD")).getD []) 4 = some (3, 2)
      ∧ getPrice pm ("USD", "CAD") (some 4) = (none, none)
      ∧ ¬ getPrice pm ("USD", "CAD") (some 4)
          = toRes (specLookupLT ((lookupPriceAndInverse pm.entries
              ("USD", "CAD")).getD []) 4) :=
  ⟨(buildPriceMap c2Dirs).getD ⟨[], []⟩, by with_unfolding_all decide, by with_unfolding_all decide, by with_unfolding_all decide, by with_unfolding_all decide⟩

/-- What `getPrice` actually computes for a pair `(b, q)` at a date `d`,
stated as the amendment of C2: with a non-null date it returns the greatest
entry whose date is less than *or equal to* `d` provided some entry is dated
strictly after `d`, and `(null, null)` otherwise (so both before the earliest
sample and at-or-after the latest one); with a null date, the last entry.  An
unknown pair gives `(null, null)` for every date. -/
def C2Spec (pm : PriceMapS) (b q : String) (d : ℕ) : Prop :=
  (lookupPriceAndInverse pm.entries (b, q) = none →
      getPrice pm (b, q) (some d) = (none, none)
      ∧ getPrice pm (b, q) none = (none, none))
  ∧ ∀ L, lookupPriceAndInverse pm.entries (b, q) = some L →
      getPrice pm (b, q) (some d) = toRes (specLookupLE L d)
      ∧ getPrice pm (b, q) none = toRes L.getLast?

/-- **C2, amended.**  For every price map produced by `buildPriceMap`, every
pair of distinct currencies with non-empty quote, and every date, `getPrice`
satisfies `C2Spec`: ≤-semantics guarded by the existence of a strictly later
entry (not the claimed strictly-less semantics), last entry on a null date,
`(null, null)` on unknown pairs. -/
theorem C2_getPrice_le_semantics (dirs : List PriceDir) (pm : PriceMapS)
    (b q : String) (d : ℕ) (hb : buildPriceMap dirs = some pm)
    (hq : ¬ q = "") (hne : ¬ b = q) : C2Spec pm b q d := by
  have hguard : ¬ (((b, q) : Pair).2 = "" ∨ ((b, q) : Pair).1 = ((b, q) : Pair).2) := by
    simp [hq, hne]
  constructor
  · intro hnone
    exact ⟨getPrice_eq_none pm (b, q) hguard hnone (some d),
      getPrice_eq_none pm (b, q) hguard hnone none⟩
  · intro L hL
    have hstrictL : StrictByDate L := by
      rcases build_pairs hb (b, q) with ⟨hn, _⟩ | ⟨L0, hs0, ⟨hf, _⟩ | ⟨hf, _⟩⟩
      · rw [hL] at hn; exact absurd hn (by simp)
      · rw [hL] at hf
        have : L = L0 := by injection hf
        rw [this]; exact hs0
      · rw [hL] at hf
        have : L = invList L0 := by injection hf
        rw [this]; exact invList_strict hs0
    constructor
    · have h1 := getPrice_eq_toRes pm (b, q) hguard hL (some d)
      rw [h1]
      have h2 : resOf L (some d) = specLookupLE L d := lookup_eq_specLE hstrictL d
      rw [h2]
    · exact getPrice_eq_toRes pm (b, q) hguard hL none

/-- Input for the C2 witness: prices `(USD, CAD)` of 2 at date 1 and 4 at
date 3. -/
def c2wDirs : List PriceDir := [⟨1, "USD", 2, "CAD"⟩, ⟨3, "USD", 4, "CAD"⟩]

/-- C2 witness: the amended statement instantiated on `c2wDirs` at date 2. -/
theorem C2_witness :
    C2Spec ((buildPriceMap c2wDirs).getD ⟨[], []⟩) "USD" "CAD" 2 :=
  C2_getPrice_le_semantics c2wDirs ((buildPriceMap c2wDirs).getD ⟨[], []⟩)
    "USD" "CAD" 2 (by with_unfolding_all decide) (by with_unfolding_all decide) (by with_unfolding_all decide)

/-- Input for the C7 witness: a single price `(USD, CAD)` of 2 at date 1. -/
def c7wDirs : List PriceDir := [⟨1, "USD", 2, "CAD"⟩]

/-- C7 witness: on `c7wDirs`, the latest forward rate is 2 and the latest
inverse rate is 1/2, with matching dates. -/
theorem C7_witness : ((1 : ℚ) / 2 = 1 / 2) ∧ (some 1 : Option ℕ) = some 1 :=
  C7_reciprocal_amended c7wDirs ((buildPriceMap c7wDirs).getD ⟨[], []⟩)
    "USD" "CAD" none (some 1) (some 1) 2 (1 / 2)
    (by with_unfolding_all decide) (by with_unfolding_all decide) (by with_unfolding_all decide) (by with_unfolding_all decide) (by with_unfolding_all decide)
    (by with_unfolding_all decide) (by with_unfolding_all decide)

end Prices

end AccelLedger
